import Mathlib

/-!
A verification development for the katcp message codec.

This file gives a shallow embedding, over `List Char`, of the katcp wire
codec: the escaping scheme (`src/utils.rs`), the nom grammar and the
`Message` model (`src/protocol.rs`), the scalar/composite argument codec
(`src/messages/common.rs`), and the message-family layer
(`src/messages/{core,log,sensors}.rs`), together with theorems about
round-tripping, grammar validity and error behaviour.

Rust strings are modelled as `List Char`, `Result` as `Except`,
machine integers as `Nat`/`Int` with explicit bounds where they matter,
and `f32`/`f64` values as Lean `Float` (only the success/failure
behaviour of float parsing is relied upon, never a float's value).
-/

namespace Katcp

/-- Character classes used by the nom combinators (`nom::character::complete`):
these are ASCII classes. -/
def isAlphaC (c : Char) : Bool :=
  ('A' ≤ c && c ≤ 'Z') || ('a' ≤ c && c ≤ 'z')

def isDigitC (c : Char) : Bool :=
  '0' ≤ c && c ≤ '9'

def isAlphaNumC (c : Char) : Bool :=
  isAlphaC c || isDigitC c

/-- `MessageKind` from `src/protocol.rs`. -/
inductive MessageKind where
  | Request
  | Reply
  | Inform
deriving DecidableEq, Repr

/-- `Message` from `src/protocol.rs`: kind, name, optional id, arguments.
Rust's `u32` id is a `Nat`; the bound `< 2^32` is imposed by theorem
hypotheses where it matters. -/
structure Message where
  kind : MessageKind
  name : List Char
  id : Option Nat
  arguments : List (List Char)
deriving DecidableEq, Repr

/-- `KatcpError` from `src/protocol.rs`. The `ParseError` payload (a nom
error value) is abstracted away, as no code path inspects it. -/
inductive KatcpError where
  | ParseError
  | BadArgument
  | MissingArgument
  | IncorrectType
  | Message (s : List Char)
  | Unknown
deriving DecidableEq, Repr

namespace Utils

/-- The scanning loop of Rust `str::replace`, with an explicit fuel
argument (initialised to the input length, which always suffices since
every step consumes at least one character) so that the definition is
structurally recursive and kernel-evaluable. -/
def replaceF (pat repl : List Char) : Nat → List Char → List Char
  | 0, s => s
  | _ + 1, [] => []
  | fuel + 1, c :: rest =>
    if pat ≠ [] ∧ pat.isPrefixOf (c :: rest) then
      repl ++ replaceF pat repl fuel ((c :: rest).drop pat.length)
    else c :: replaceF pat repl fuel rest

/-- Rust `str::replace(pat, repl)`: replace the leftmost-first,
non-overlapping occurrences of `pat` by `repl`, scanning left to right
and never re-scanning replacement text. -/
def replaceL (pat repl : List Char) (s : List Char) : List Char :=
  replaceF pat repl s.length s

theorem replaceF_fuel (pat repl : List Char) :
    ∀ f1 f2 s, s.length ≤ f1 → s.length ≤ f2 →
      replaceF pat repl f1 s = replaceF pat repl f2 s := by
  intro f1
  induction f1 with
  | zero =>
    intro f2 s h1 _
    have hs : s = [] := List.eq_nil_of_length_eq_zero (Nat.le_zero.mp h1)
    subst hs
    cases f2 with
    | zero => rfl
    | succ g => rfl
  | succ f ih =>
    intro f2 s h1 h2
    cases s with
    | nil =>
      cases f2 with
      | zero => rfl
      | succ g => rfl
    | cons c rest =>
      cases f2 with
      | zero => simp at h2
      | succ g =>
        rw [replaceF, replaceF]
        by_cases hp : pat ≠ [] ∧ pat.isPrefixOf (c :: rest)
        · rw [if_pos hp, if_pos hp]
          have hple : 1 ≤ pat.length := by
            have := hp.1
            cases pat with
            | nil => simp at this
            | cons p ps => simp
          have hlen : ((c :: rest).drop pat.length).length ≤ f := by
            simp only [List.length_drop, List.length_cons]
            simp at h1
            omega
          have hlen2 : ((c :: rest).drop pat.length).length ≤ g := by
            simp only [List.length_drop, List.length_cons]
            simp at h2
            omega
          rw [ih g _ hlen hlen2]
        · rw [if_neg hp, if_neg hp]
          have hlen : rest.length ≤ f := by simp at h1; omega
          have hlen2 : rest.length ≤ g := by simp at h2; omega
          rw [ih g rest hlen hlen2]

theorem replaceL_nil (pat repl : List Char) : replaceL pat repl [] = [] := rfl

theorem replaceL_pos (pat repl s : List Char) (hne : pat ≠ []) (hpre : pat <+: s) :
    replaceL pat repl s = repl ++ replaceL pat repl (s.drop pat.length) := by
  cases s with
  | nil => exact absurd (List.prefix_nil.mp hpre) hne
  | cons c rest =>
    show replaceF pat repl (rest.length + 1) (c :: rest) = _
    simp only [replaceF]
    rw [if_pos ⟨hne, List.isPrefixOf_iff_prefix.mpr hpre⟩]
    congr 1
    have hple : 1 ≤ pat.length := by
      cases pat with
      | nil => simp at hne
      | cons p ps => simp
    apply replaceF_fuel
    · simp only [List.length_drop, List.length_cons]
      omega
    · exact le_refl _

theorem replaceL_neg (pat repl : List Char) (c : Char) (rest : List Char)
    (h : ¬ pat <+: (c :: rest)) :
    replaceL pat repl (c :: rest) = c :: replaceL pat repl rest := by
  show replaceF pat repl (rest.length + 1) (c :: rest) = _
  simp only [replaceF]
  rw [if_neg]
  · rfl
  · intro hcon
    exact h (List.isPrefixOf_iff_prefix.mp hcon.2)

theorem pair_prefix_iff (a b c d : Char) (l : List Char) :
    [a, b] <+: (c :: d :: l) ↔ a = c ∧ b = d := by
  constructor
  · intro h
    rcases h with ⟨t, ht⟩
    simp at ht
    exact ⟨ht.1, ht.2.1⟩
  · rintro ⟨rfl, rfl⟩
    exact ⟨l, rfl⟩

/-- One step of a two-character replacement on a list with at least two
elements. -/
theorem replaceL_pair_cons₂ (a b : Char) (repl : List Char) (c d : Char) (rest : List Char) :
    replaceL [a, b] repl (c :: d :: rest) =
      if c = a ∧ d = b then repl ++ replaceL [a, b] repl rest
      else c :: replaceL [a, b] repl (d :: rest) := by
  by_cases h : c = a ∧ d = b
  · rw [if_pos h]
    rcases h with ⟨rfl, rfl⟩
    rw [replaceL_pos [c, d] repl _ (by simp) ((pair_prefix_iff c d c d rest).mpr ⟨rfl, rfl⟩)]
    rfl
  · rw [if_neg h]
    exact replaceL_neg _ _ _ _ (fun hc => h (And.imp (fun h1 => h1.symm) (fun h2 => h2.symm)
      ((pair_prefix_iff a b c d rest).mp hc)))

theorem replaceL_pair_one (a b : Char) (repl : List Char) (c : Char) :
    replaceL [a, b] repl [c] = [c] := by
  rw [replaceL_neg, replaceL_nil]
  rintro ⟨t, ht⟩
  simp at ht

/-- A head character that cannot begin a two-character pattern match
passes through a replacement untouched. -/
theorem replaceL_pair_cons_neg (a b : Char) (repl : List Char) (c : Char) (u : List Char)
    (h : ¬ (c = a ∧ u.head? = some b)) :
    replaceL [a, b] repl (c :: u) = c :: replaceL [a, b] repl u := by
  match u with
  | [] => rw [replaceL_pair_one, replaceL_nil]
  | d :: u' =>
    rw [replaceL_pair_cons₂, if_neg]
    intro hc
    exact h ⟨hc.1, by simp [hc.2]⟩

/-- A single-character replacement is a per-character map. -/
theorem replaceL_single (c : Char) (repl : List Char) (s : List Char) :
    replaceL [c] repl s = s.flatMap (fun d => if d = c then repl else [d]) := by
  induction s with
  | nil => rw [replaceL_nil]; rfl
  | cons d t ih =>
    by_cases hdc : d = c
    · subst hdc
      rw [replaceL_pos [d] repl (d :: t) (by simp) ⟨t, rfl⟩]
      simp [ih]
    · rw [replaceL_neg]
      · simp [ih, hdc]
      · rintro ⟨u, hu⟩
        simp at hu
        exact hdc hu.1.symm

/-- `unescape` from `src/utils.rs`: the eight sequential `replace` calls. -/
def unescape (input : List Char) : List Char :=
  replaceL ['\\', '\\'] ['\\']
    (replaceL ['\\', '@'] []
      (replaceL ['\\', 't'] ['\t']
        (replaceL ['\\', 'e'] ['\x1b']
          (replaceL ['\\', 'r'] ['\r']
            (replaceL ['\\', 'n'] ['\n']
              (replaceL ['\\', '0'] ['\x00']
                (replaceL ['\\', '_'] [' '] input)))))))

/-- `escape` from `src/utils.rs`: the empty string maps to the sentinel
`\@`, otherwise seven sequential `replace` calls. -/
def escape (input : List Char) : List Char :=
  if input = [] then ['\\', '@']
  else
    replaceL ['\t'] ['\\', 't']
      (replaceL ['\x1b'] ['\\', 'e']
        (replaceL ['\r'] ['\\', 'r']
          (replaceL ['\n'] ['\\', 'n']
            (replaceL ['\x00'] ['\\', '0']
              (replaceL [' '] ['\\', '_']
                (replaceL ['\\'] ['\\', '\\'] input))))))

/-- The eight reserved two-character escape sequences of the wire format. -/
def reservedSeqs : List (List Char) :=
  [['\\', '\\'], ['\\', '_'], ['\\', '0'], ['\\', 'n'],
   ['\\', 'r'], ['\\', 'e'], ['\\', 't'], ['\\', '@']]

/-- A string collides with the escaping scheme when one of the eight
reserved two-character sequences occurs in it. -/
def NoReserved (s : List Char) : Prop :=
  ∀ p ∈ reservedSeqs, ¬ p <:+: s

instance (s : List Char) : Decidable (NoReserved s) := by
  unfold NoReserved
  infer_instance

/-! ### The escaping round-trip

`escape` on a nonempty string is a per-character map: every backslash
becomes `\\` and every special character becomes its two-character
escape token.  `unescape` then removes the tokens one pattern at a time;
each of its eight `replace` passes acts blockwise on the image of that
map provided the input contains no reserved sequence. -/

/-- The character-level escape table: `c ↦ some code` when `c` is one of
the six special characters with escape token `\code`. -/
def escCode (c : Char) : Option Char :=
  if c = ' ' then some '_'
  else if c = '\x00' then some '0'
  else if c = '\n' then some 'n'
  else if c = '\r' then some 'r'
  else if c = '\x1b' then some 'e'
  else if c = '\t' then some 't'
  else none

/-- `escCode` with the characters in `keys` already restored by earlier
`unescape` passes. -/
def escCodeMinus (keys : List Char) (c : Char) : Option Char :=
  if c ∈ keys then none else escCode c

/-- The wire image of one character under a partially-restored code
table: backslashes are doubled, still-encoded specials are two-character
tokens, everything else is itself. -/
def wireMap (code : Char → Option Char) (c : Char) : List Char :=
  if c = '\\' then ['\\', '\\']
  else
    match code c with
    | some y => ['\\', y]
    | none => [c]

theorem escCodeMinus_nil (c : Char) : escCodeMinus [] c = escCode c := by
  simp [escCodeMinus]

theorem escCodeMinus_cons (k : Char) (keys : List Char) (c : Char) :
    escCodeMinus (k :: keys) c = if c = k then none else escCodeMinus keys c := by
  unfold escCodeMinus
  by_cases h1 : c = k
  · simp [h1]
  · by_cases h2 : c ∈ keys <;> simp [h1, h2]

theorem escCodeMinus_some {keys : List Char} {c y : Char}
    (h : escCodeMinus keys c = some y) : escCode c = some y := by
  unfold escCodeMinus at h
  split at h
  · exact absurd h (by simp)
  · exact h

theorem escCode_ne_backslash {c y : Char} (h : escCode c = some y) : y ≠ '\\' := by
  unfold escCode at h
  split_ifs at h <;> · rw [Option.some.injEq] at h; subst h; decide

theorem escCodeMinus_ne_backslash {keys : List Char} {c y : Char}
    (h : escCodeMinus keys c = some y) : y ≠ '\\' :=
  escCode_ne_backslash (escCodeMinus_some h)

/-- Each escape code letter determines the character it encodes. -/
theorem escCode_inj {c k x : Char}
    (hmem : (k, x) ∈ [(' ', '_'), ('\x00', '0'), ('\n', 'n'), ('\r', 'r'),
      ('\x1b', 'e'), ('\t', 't')])
    (h : escCode c = some x) : c = k := by
  unfold escCode at h
  fin_cases hmem <;>
    · split_ifs at h <;> first
        | assumption
        | (rw [Option.some.injEq] at h; exact absurd h (by decide))

theorem wireMap_congr {code1 code2 : Char → Option Char}
    (h : ∀ c, code1 c = code2 c) (s : List Char) :
    s.flatMap (wireMap code1) = s.flatMap (wireMap code2) := by
  have : code1 = code2 := funext h
  rw [this]

/-- `escape` of a nonempty string is the flat map of the per-character
escape table over the string. -/
theorem escape_eq_flatMap (s : List Char) (hs : s ≠ []) :
    escape s = s.flatMap (wireMap escCode) := by
  rw [escape, if_neg hs]
  clear hs
  simp only [replaceL_single]
  induction s with
  | nil => simp
  | cons c t ih =>
    simp only [List.flatMap_cons, List.flatMap_append]
    rw [ih]
    congr 1
    by_cases h1 : c = '\\'
    · subst h1; decide
    by_cases h2 : c = ' '
    · subst h2; decide
    by_cases h3 : c = '\x00'
    · subst h3; decide
    by_cases h4 : c = '\n'
    · subst h4; decide
    by_cases h5 : c = '\r'
    · subst h5; decide
    by_cases h6 : c = '\x1b'
    · subst h6; decide
    by_cases h7 : c = '\t'
    · subst h7; decide
    simp [wireMap, escCode, h1, h2, h3, h4, h5, h6, h7]

/-- The wire image of a string never starts with the code letter `x`
unless the string itself starts with a bare (not-pending) `x`. -/
theorem head_flatMap_wireMap_ne (code : Char → Option Char) (x : Char) (hx : x ≠ '\\')
    (t : List Char) (hnx : ∀ t', t = x :: t' → False) :
    (t.flatMap (wireMap code)).head? ≠ some x := by
  match t with
  | [] => simp
  | d :: t' =>
    simp only [List.flatMap_cons]
    unfold wireMap
    by_cases hd : d = '\\'
    · rw [if_pos hd]
      intro hcon
      simp at hcon
      exact hx hcon.symm
    · rw [if_neg hd]
      match hcd : code d with
      | some y =>
        intro hcon
        simp at hcon
        exact hx hcon.symm
      | none =>
        intro hcon
        simp at hcon
        exact hnx t' (by rw [hcon])

/-- One `unescape` pass that restores the token `\x` back to the source
character `k`: on the wire image of a string containing no occurrence of
`\x`, it acts blockwise and removes `k` from the pending code table. -/
theorem unescape_step (code code2 : Char → Option Char) (k x : Char)
    (hk : k ≠ '\\') (hx : x ≠ '\\')
    (hkx : code k = some x)
    (hinj : ∀ c, code c = some x → c = k)
    (hcodes : ∀ c y, code c = some y → y ≠ '\\')
    (hcode2 : ∀ c, code2 c = if c = k then none else code c) :
    ∀ s : List Char, ¬ ['\\', x] <:+: s →
      replaceL ['\\', x] [k] (s.flatMap (wireMap code)) = s.flatMap (wireMap code2) := by
  intro s
  induction s with
  | nil => intro _; simpa using replaceL_nil _ _
  | cons c t ih =>
    intro hres
    have hrest : ¬ ['\\', x] <:+: t := fun hc => hres (List.infix_cons hc)
    simp only [List.flatMap_cons]
    by_cases hc : c = '\\'
    · subst hc
      rw [show wireMap code '\\' = ['\\', '\\'] from rfl]
      have htx : (t.flatMap (wireMap code)).head? ≠ some x :=
        head_flatMap_wireMap_ne code x hx t
          (fun t' ht => hres (by rw [ht]; exact ⟨[], t', rfl⟩))
      rw [List.cons_append, List.cons_append, List.nil_append]
      rw [replaceL_pair_cons_neg _ _ _ _ _ (by
        rintro ⟨-, hcon⟩
        simp at hcon
        exact hx hcon.symm)]
      rw [replaceL_pair_cons_neg _ _ _ _ _ (fun hcon => htx hcon.2)]
      rw [ih hrest]
      rfl
    · match hcd : code c with
      | some y =>
        rw [show wireMap code c = ['\\', y] by unfold wireMap; rw [if_neg hc, hcd]]
        by_cases hyx : y = x
        · subst hyx
          have hck : c = k := hinj c hcd
          subst hck
          rw [List.cons_append, List.cons_append, List.nil_append]
          rw [replaceL_pair_cons₂, if_pos ⟨rfl, rfl⟩, ih hrest]
          rw [show wireMap code2 c = [c] by
            unfold wireMap; rw [if_neg hc, hcode2 c, if_pos rfl]]
        · have hyb : y ≠ '\\' := hcodes c y hcd
          rw [List.cons_append, List.cons_append, List.nil_append]
          rw [replaceL_pair_cons_neg _ _ _ _ _ (by
            rintro ⟨-, hcon⟩
            simp at hcon
            exact hyx hcon)]
          rw [replaceL_pair_cons_neg _ _ _ _ _ (by
            rintro ⟨hcon, -⟩
            exact hyb hcon)]
          rw [ih hrest]
          have hck : c ≠ k := by
            intro hcon
            subst hcon
            rw [hkx] at hcd
            exact hyx (by injection hcd with hxy; exact hxy.symm)
          rw [show wireMap code2 c = ['\\', y] by
            unfold wireMap; rw [if_neg hc, hcode2 c, if_neg hck, hcd]]
          rfl
      | none =>
        rw [show wireMap code c = [c] by unfold wireMap; rw [if_neg hc, hcd]]
        rw [List.cons_append, List.nil_append]
        rw [replaceL_pair_cons_neg _ _ _ _ _ (by
          rintro ⟨hcon, -⟩
          exact hc hcon)]
        rw [ih hrest]
        have hck : c ≠ k := by
          intro hcon
          subst hcon
          rw [hkx] at hcd
          exact absurd hcd (by simp)
        rw [show wireMap code2 c = [c] by
          unfold wireMap; rw [if_neg hc, hcode2 c, if_neg hck, hcd]]
        rfl

/-- An `unescape` pass whose token `\x` corresponds to no pending code
letter (the `\@` pass on a nonempty escape image) changes nothing. -/
theorem unescape_step_noop (code : Char → Option Char) (x : Char) (hx : x ≠ '\\')
    (r : List Char)
    (hnone : ∀ c, code c ≠ some x)
    (hcodes : ∀ c y, code c = some y → y ≠ '\\') :
    ∀ s : List Char, ¬ ['\\', x] <:+: s →
      replaceL ['\\', x] r (s.flatMap (wireMap code)) = s.flatMap (wireMap code) := by
  intro s
  induction s with
  | nil => intro _; simpa using replaceL_nil _ _
  | cons c t ih =>
    intro hres
    have hrest : ¬ ['\\', x] <:+: t := fun hc => hres (List.infix_cons hc)
    simp only [List.flatMap_cons]
    by_cases hc : c = '\\'
    · subst hc
      rw [show wireMap code '\\' = ['\\', '\\'] from rfl]
      have htx : (t.flatMap (wireMap code)).head? ≠ some x :=
        head_flatMap_wireMap_ne code x hx t
          (fun t' ht => hres (by rw [ht]; exact ⟨[], t', rfl⟩))
      rw [List.cons_append, List.cons_append, List.nil_append]
      rw [replaceL_pair_cons_neg _ _ _ _ _ (by
        rintro ⟨-, hcon⟩
        simp at hcon
        exact hx hcon.symm)]
      rw [replaceL_pair_cons_neg _ _ _ _ _ (fun hcon => htx hcon.2)]
      rw [ih hrest]
    · match hcd : code c with
      | some y =>
        rw [show wireMap code c = ['\\', y] by unfold wireMap; rw [if_neg hc, hcd]]
        have hyx : y ≠ x := by
          intro hcon
          subst hcon
          exact hnone c hcd
        have hyb : y ≠ '\\' := hcodes c y hcd
        rw [List.cons_append, List.cons_append, List.nil_append]
        rw [replaceL_pair_cons_neg _ _ _ _ _ (by
          rintro ⟨-, hcon⟩
          simp at hcon
          exact hyx hcon)]
        rw [replaceL_pair_cons_neg _ _ _ _ _ (by
          rintro ⟨hcon, -⟩
          exact hyb hcon)]
        rw [ih hrest]
      | none =>
        rw [show wireMap code c = [c] by unfold wireMap; rw [if_neg hc, hcd]]
        rw [List.cons_append, List.nil_append]
        rw [replaceL_pair_cons_neg _ _ _ _ _ (by
          rintro ⟨hcon, -⟩
          exact hc hcon)]
        rw [ih hrest]

/-- The last `unescape` pass turns every doubled backslash back into a
single one, recovering the original string once every code letter has
been restored. -/
theorem unescape_final (code : Char → Option Char) (hnone : ∀ c, code c = none) :
    ∀ s : List Char, replaceL ['\\', '\\'] ['\\'] (s.flatMap (wireMap code)) = s := by
  intro s
  induction s with
  | nil => simpa using replaceL_nil _ _
  | cons c t ih =>
    simp only [List.flatMap_cons]
    by_cases hc : c = '\\'
    · subst hc
      rw [show wireMap code '\\' = ['\\', '\\'] from rfl]
      rw [List.cons_append, List.cons_append, List.nil_append]
      rw [replaceL_pair_cons₂, if_pos ⟨rfl, rfl⟩, ih]
      rfl
    · rw [show wireMap code c = [c] by unfold wireMap; rw [if_neg hc, hnone c]]
      rw [List.cons_append, List.nil_append]
      rw [replaceL_pair_cons_neg _ _ _ _ _ (by
        rintro ⟨hcon, -⟩
        exact hc hcon)]
      rw [ih]

theorem escCode_ne_at (c : Char) : escCode c ≠ some '@' := by
  unfold escCode
  split_ifs <;> decide

theorem escCodeMinus_full (c : Char) :
    escCodeMinus ['\t', '\x1b', '\r', '\n', '\x00', ' '] c = none := by
  unfold escCodeMinus
  split
  · rfl
  · rename_i hmem
    unfold escCode
    split_ifs with h1 h2 h3 h4 h5 h6
    · subst h1; exact absurd (by decide) hmem
    · subst h2; exact absurd (by decide) hmem
    · subst h3; exact absurd (by decide) hmem
    · subst h4; exact absurd (by decide) hmem
    · subst h5; exact absurd (by decide) hmem
    · subst h6; exact absurd (by decide) hmem
    · rfl

theorem unescape_empty_escape : unescape (escape []) = [] := by
  rw [show escape [] = ['\\', '@'] from rfl]
  have hskip : ∀ (b : Char) (repl : List Char), b ≠ '@' →
      replaceL ['\\', b] repl ['\\', '@'] = ['\\', '@'] := by
    intro b repl hb
    rw [replaceL_pair_cons₂, if_neg (fun hc => hb hc.2.symm), replaceL_pair_one]
  unfold unescape
  rw [hskip '_' _ (by decide), hskip '0' _ (by decide), hskip 'n' _ (by decide),
    hskip 'r' _ (by decide), hskip 'e' _ (by decide), hskip 't' _ (by decide)]
  rw [replaceL_pair_cons₂, if_pos ⟨rfl, rfl⟩, replaceL_nil, List.append_nil, replaceL_nil]

/-- The two escaping passes are exact inverses away from reserved
sequences: the full composition of `escape`'s seven `replace` calls and
`unescape`'s eight, chained through the partially-restored code tables. -/
theorem unescape_escape_of_noReserved (s : List Char) (h : NoReserved s) :
    unescape (escape s) = s := by
  by_cases hs : s = []
  · subst hs
    exact unescape_empty_escape
  · unfold unescape
    rw [escape_eq_flatMap s hs]
    rw [wireMap_congr (fun c => (escCodeMinus_nil c).symm) s]
    rw [unescape_step (escCodeMinus []) (escCodeMinus [' ']) ' ' '_'
      (by decide) (by decide) (by decide)
      (fun c hc => escCode_inj (by decide) (escCodeMinus_some hc))
      (fun c y hc => escCodeMinus_ne_backslash hc)
      (escCodeMinus_cons ' ' []) s (h _ (by decide))]
    rw [unescape_step (escCodeMinus [' ']) (escCodeMinus ['\x00', ' ']) '\x00' '0'
      (by decide) (by decide) (by decide)
      (fun c hc => escCode_inj (by decide) (escCodeMinus_some hc))
      (fun c y hc => escCodeMinus_ne_backslash hc)
      (escCodeMinus_cons '\x00' [' ']) s (h _ (by decide))]
    rw [unescape_step (escCodeMinus ['\x00', ' ']) (escCodeMinus ['\n', '\x00', ' ']) '\n' 'n'
      (by decide) (by decide) (by decide)
      (fun c hc => escCode_inj (by decide) (escCodeMinus_some hc))
      (fun c y hc => escCodeMinus_ne_backslash hc)
      (escCodeMinus_cons '\n' ['\x00', ' ']) s (h _ (by decide))]
    rw [unescape_step (escCodeMinus ['\n', '\x00', ' '])
      (escCodeMinus ['\r', '\n', '\x00', ' ']) '\r' 'r'
      (by decide) (by decide) (by decide)
      (fun c hc => escCode_inj (by decide) (escCodeMinus_some hc))
      (fun c y hc => escCodeMinus_ne_backslash hc)
      (escCodeMinus_cons '\r' ['\n', '\x00', ' ']) s (h _ (by decide))]
    rw [unescape_step (escCodeMinus ['\r', '\n', '\x00', ' '])
      (escCodeMinus ['\x1b', '\r', '\n', '\x00', ' ']) '\x1b' 'e'
      (by decide) (by decide) (by decide)
      (fun c hc => escCode_inj (by decide) (escCodeMinus_some hc))
      (fun c y hc => escCodeMinus_ne_backslash hc)
      (escCodeMinus_cons '\x1b' ['\r', '\n', '\x00', ' ']) s (h _ (by decide))]
    rw [unescape_step (escCodeMinus ['\x1b', '\r', '\n', '\x00', ' '])
      (escCodeMinus ['\t', '\x1b', '\r', '\n', '\x00', ' ']) '\t' 't'
      (by decide) (by decide) (by decide)
      (fun c hc => escCode_inj (by decide) (escCodeMinus_some hc))
      (fun c y hc => escCodeMinus_ne_backslash hc)
      (escCodeMinus_cons '\t' ['\x1b', '\r', '\n', '\x00', ' ']) s (h _ (by decide))]
    rw [unescape_step_noop (escCodeMinus ['\t', '\x1b', '\r', '\n', '\x00', ' ']) '@'
      (by decide) []
      (fun c hc => escCode_ne_at c (escCodeMinus_some hc))
      (fun c y hc => escCodeMinus_ne_backslash hc) s (h _ (by decide))]
    exact unescape_final _ escCodeMinus_full s

end Utils

/-! ## The grammar and parser of `src/protocol.rs`

The nom parsers are embedded as functions `List Char → Option (value ×
remaining)`: `IResult`'s `Ok((remaining, value))` becomes
`some (value, remaining)` and any nom error becomes `none` (no code path
inspects the error payload).  `recognize` of a parser that returns its
own matched slice is modelled by returning the consumed characters
directly. -/

/-- The characters of `none_of("\\ \0\n\r\t")`: they terminate a `plain`
run and cannot appear bare in an argument. -/
def argSpecials : List Char := ['\\', ' ', '\x00', '\n', '\r', '\t']

/-- The characters of `one_of("\\_0nret@")`: the eight characters that
may follow a backslash in an `escape` token. -/
def escCodes : List Char := ['\\', '_', '0', 'n', 'r', 'e', 't', '@']

namespace Protocol

/-- A nom parser over `&str`. -/
abbrev P (α : Type) : Type := List Char → Option (α × List Char)

/-- `nom::character::complete::one_of`. -/
def oneOf (cs : List Char) : P Char := fun s =>
  match s with
  | [] => none
  | c :: rest => if c ∈ cs then some (c, rest) else none

/-- `nom::character::complete::char`. -/
def charP (c : Char) : P Char := fun s =>
  match s with
  | [] => none
  | d :: rest => if d = c then some (c, rest) else none

/-- `nom::bytes::complete::tag`. -/
def tag (t : List Char) : P (List Char) := fun s =>
  if t.isPrefixOf s then some (t, s.drop t.length) else none

/-- `nom::character::complete::alpha1`: maximal nonempty run of ASCII
letters. -/
def alpha1 : P (List Char) := fun s =>
  let t := s.takeWhile isAlphaC
  if t = [] then none else some (t, s.dropWhile isAlphaC)

/-- `nom::character::complete::alphanumeric1`. -/
def alphanumeric1 : P (List Char) := fun s =>
  let t := s.takeWhile isAlphaNumC
  if t = [] then none else some (t, s.dropWhile isAlphaNumC)

/-- `nom::character::complete::digit0`: possibly empty maximal run of
ASCII digits; never fails. -/
def digit0 : P (List Char) := fun s =>
  some (s.takeWhile isDigitC, s.dropWhile isDigitC)

/-- `nom::character::complete::none_of`. -/
def noneOf (cs : List Char) : P Char := fun s =>
  match s with
  | [] => none
  | c :: rest => if c ∈ cs then none else some (c, rest)

/-- `nom::branch::alt` on two alternatives. -/
def alt2 (p q : P α) : P α := fun s =>
  match p s with
  | some r => some r
  | none => q s

/-- `nom::multi::many0`, with an explicit fuel argument (initialised to
the input length, which always suffices since every iteration must
consume) so that the definition is structurally recursive.  The guard
`r.length < s.length` reflects nom's termination requirement that the
inner parser consume input on every iteration; all inner parsers used
here consume at least one character on success. -/
def many0F (p : P α) : Nat → List Char → Option (List α × List Char)
  | 0, s => some ([], s)
  | fuel + 1, s =>
    match p s with
    | none => some ([], s)
    | some (a, r) =>
      if r.length < s.length then
        match many0F p fuel r with
        | none => some ([], s)
        | some (as, r2) => some (a :: as, r2)
      else some ([], s)

/-- `nom::multi::many0`. -/
def many0 (p : P α) : P (List α) := fun s => many0F p s.length s

/-- `nom::multi::many1`: one match, then `many0`. -/
def many1 (p : P α) : P (List α) := fun s =>
  match p s with
  | none => none
  | some (a, r) =>
    match many0 p r with
    | none => none
    | some (as, r2) => some (a :: as, r2)

/-- `nom::combinator::opt`. -/
def optP (p : P α) : P (Option α) := fun s =>
  match p s with
  | none => some (none, s)
  | some (a, r) => some (some a, r)

/-- `nom::sequence::preceded`. -/
def preceded (p : P α) (q : P β) : P β := fun s =>
  match p s with
  | none => none
  | some (_, r) => q r

/-- `fn kind` from `src/protocol.rs`. -/
def kind : P MessageKind := fun s =>
  match oneOf ['!', '#', '?'] s with
  | none => none
  | some (c, rest) =>
    some (if c = '?' then .Request else if c = '!' then .Reply else .Inform, rest)

/-- `fn whitespace`: `recognize(many1(one_of(" \t")))`. -/
def whitespace : P (List Char) := fun s =>
  match many1 (oneOf [' ', '\t']) s with
  | none => none
  | some (cs, r) => some (cs, r)

/-- `fn name`: `recognize(pair(alpha1, many0(alt((alphanumeric1, tag("-"))))))`. -/
def name : P (List Char) := fun s =>
  match alpha1 s with
  | none => none
  | some (a, r) =>
    match many0 (alt2 alphanumeric1 (tag ['-'])) r with
    | none => none
    | some (parts, r2) => some (a ++ parts.flatten, r2)

/-- Rust `str::parse::<u32>`: optional leading `+`, then a nonempty
all-digit string whose value fits in 32 bits. -/
def parseU32 (s : List Char) : Option Nat :=
  let ds := if s.head? = some '+' then s.tail else s
  if ds ≠ [] ∧ ds.all isDigitC then
    let v := ds.foldl (fun acc c => 10 * acc + (c.toNat - 48)) 0
    if v < 2 ^ 32 then some v else none
  else none

/-- `fn id`: `map_res(delimited(char('['), recognize(tuple((one_of("123456789"), digit0))), char(']')), str::parse)`. -/
def id : P Nat := fun s =>
  match charP '[' s with
  | none => none
  | some (_, r1) =>
    match oneOf ['1', '2', '3', '4', '5', '6', '7', '8', '9'] r1 with
    | none => none
    | some (d, r2) =>
      match digit0 r2 with
      | none => none
      | some (ds, r3) =>
        match charP ']' r3 with
        | none => none
        | some (_, r4) =>
          match parseU32 (d :: ds) with
          | none => none
          | some n => some (n, r4)

/-- `fn escape`: `recognize(pair(char('\\'), one_of("\\_0nret@")))`. -/
def escape : P (List Char) := fun s =>
  match charP '\\' s with
  | none => none
  | some (_, r) =>
    match oneOf escCodes r with
    | none => none
    | some (c, r2) => some (['\\', c], r2)

/-- `fn eol`: `recognize(one_of("\n\r"))`. -/
def eol : P (List Char) := fun s =>
  match oneOf ['\n', '\r'] s with
  | none => none
  | some (c, r) => some ([c], r)

/-- `nom::combinator::eof`. -/
def eofP : P (List Char) := fun s =>
  if s = [] then some ([], s) else none

/-- `fn plain`: `recognize(many1(none_of("\\ \0\n\r\t")))`. -/
def plain : P (List Char) := fun s =>
  match many1 (noneOf argSpecials) s with
  | none => none
  | some (cs, r) => some (cs, r)

/-- `fn argument`: `recognize(many1(alt((escape, plain))))`. -/
def argument : P (List Char) := fun s =>
  match many1 (alt2 escape plain) s with
  | none => none
  | some (parts, r) => some (parts.flatten, r)

end Protocol

/-- `Message::new_unchecked`: no validation. -/
def Message.newUnchecked (kind : MessageKind) (name : List Char) (id : Option Nat)
    (arguments : List (List Char)) : Message :=
  ⟨kind, name, id, arguments⟩

/-- `pub fn message` from `src/protocol.rs`: the full message grammar. -/
def Protocol.message : Protocol.P Message := fun s =>
  (Protocol.kind s).bind fun (k, s1) =>
  (Protocol.name s1).bind fun (nm, s2) =>
  (Protocol.optP Protocol.id s2).bind fun (i, s3) =>
  (Protocol.many0 (Protocol.preceded Protocol.whitespace Protocol.argument) s3).bind
    fun (args, s4) =>
  (Protocol.optP Protocol.whitespace s4).bind fun (_, s5) =>
  (Protocol.alt2 Protocol.eol Protocol.eofP s5).bind fun (_, s6) =>
  some (Message.newUnchecked k nm i args, s6)

/-- `Message::new`: validates `name` against the name parser and every
argument against the argument parser (note: these nom parsers succeed on
any input with a valid *prefix*; full consumption is not required), and
does not validate `id` at all.  Error payloads are collapsed into
`KatcpError.ParseError`. -/
def Message.new (kind : MessageKind) (name : List Char) (id : Option Nat)
    (arguments : List (List Char)) : Except KatcpError Message :=
  if (Protocol.name name).isSome then
    if arguments.all (fun a => (Protocol.argument a).isSome) then
      .ok (Message.newUnchecked kind name id arguments)
    else .error .ParseError
  else .error .ParseError

/-- Digit-emitting loop for decimal rendering, structurally recursive on
an explicit fuel (the number itself always suffices, as a number has no
more decimal digits than its own magnitude). -/
def natDecimalAux : Nat → Nat → List Char
  | 0, _ => []
  | _ + 1, 0 => []
  | fuel + 1, n + 1 =>
    natDecimalAux fuel ((n + 1) / 10) ++ [Nat.digitChar ((n + 1) % 10)]

/-- Decimal rendering of a `Nat`, as Rust's `Display` for `u32` renders
the message id. -/
def natDecimal (n : Nat) : List Char :=
  if n = 0 then ['0']
  else natDecimalAux n n

theorem natDecimalAux_eq_digits (fuel : Nat) :
    ∀ n, n ≤ fuel → natDecimalAux fuel n = (Nat.digits 10 n).reverse.map Nat.digitChar := by
  induction fuel with
  | zero =>
    intro n hn
    have : n = 0 := Nat.le_zero.mp hn
    subst this
    simp [natDecimalAux]
  | succ f ih =>
    intro n hn
    cases n with
    | zero => simp [natDecimalAux]
    | succ m =>
      rw [natDecimalAux]
      have hdiv : (m + 1) / 10 ≤ f := by
        have h1 : (m + 1) / 10 < m + 1 := Nat.div_lt_self (Nat.succ_pos m) (by norm_num)
        omega
      rw [ih _ hdiv]
      rw [Nat.digits_def' (by norm_num : 1 < 10) (Nat.succ_pos m)]
      simp

/-- `natDecimal` agrees with the digits-based specification. -/
theorem natDecimal_eq (n : Nat) :
    natDecimal n = if n = 0 then ['0']
      else ((Nat.digits 10 n).reverse.map Nat.digitChar) := by
  unfold natDecimal
  by_cases h0 : n = 0
  · rw [if_pos h0, if_pos h0]
  · rw [if_neg h0, if_neg h0, natDecimalAux_eq_digits n n (le_refl n)]

/-- `impl Display for Message`: kind sigil, name, `[id]` if present, one
space before each argument, terminating newline (`writeln!`). -/
def Message.toStr (m : Message) : List Char :=
  let typeChar : Char :=
    match m.kind with
    | .Request => '?'
    | .Reply => '!'
    | .Inform => '#'
  let idStr : List Char :=
    match m.id with
    | some i => '[' :: (natDecimal i ++ [']'])
    | none => []
  let argsStr : List Char := (m.arguments.map (fun a => ' ' :: a)).flatten
  typeChar :: (m.name ++ idStr ++ argsStr ++ ['\n'])

/-- `impl FromStr for Message`: run the `message` parser and keep the
value, ignoring any unconsumed remainder; a parser error becomes
`KatcpError::ParseError`. -/
def Message.fromStr (s : List Char) : Except KatcpError Message :=
  match Protocol.message s with
  | some (m, _) => .ok m
  | none => .error .ParseError

/-- A continuation character of the grammar's `name` production. -/
def isNameTailC (c : Char) : Bool :=
  isAlphaNumC c || c = '-'

/-- Full match of the grammar's `name` production: a letter followed by
letters, digits and dashes. -/
def nameValid (nm : List Char) : Bool :=
  match nm with
  | [] => false
  | c :: rest => isAlphaC c && rest.all isNameTailC

/-- A string made of `escape` and `plain` chunks: every backslash starts
a two-character escape token and no terminator character appears bare. -/
def argOk : List Char → Bool
  | [] => true
  | c :: rest =>
    if c = '\\' then
      match rest with
      | [] => false
      | d :: rest2 => escCodes.contains d && argOk rest2
    else
      !argSpecials.contains c && argOk rest

/-- Full match of the grammar's `argument` production. -/
def argValid (a : List Char) : Bool :=
  !a.isEmpty && argOk a

namespace Protocol

theorem many0F_succ_nil (p : P α) (f : Nat) : many0F p (f + 1) [] = some ([], []) := by
  rw [many0F]
  cases hp : p [] with
  | none => rfl
  | some ar =>
    obtain ⟨a, r⟩ := ar
    simp

theorem many0F_fuel (p : P α) :
    ∀ f1 f2 s, s.length ≤ f1 → s.length ≤ f2 → many0F p f1 s = many0F p f2 s := by
  intro f1
  induction f1 with
  | zero =>
    intro f2 s h1 _
    have hs : s = [] := List.eq_nil_of_length_eq_zero (Nat.le_zero.mp h1)
    subst hs
    cases f2 with
    | zero => rfl
    | succ g => rw [many0F_succ_nil]; rfl
  | succ f ih =>
    intro f2 s h1 h2
    cases f2 with
    | zero =>
      have hs : s = [] := List.eq_nil_of_length_eq_zero (Nat.le_zero.mp h2)
      subst hs
      rw [many0F_succ_nil]
      rfl
    | succ g =>
      rw [many0F, many0F]
      cases hp : p s with
      | none => rfl
      | some ar =>
        obtain ⟨a, r⟩ := ar
        dsimp only
        by_cases hlt : r.length < s.length
        · rw [ih g r (by omega) (by omega)]
        · rw [if_neg hlt, if_neg hlt]

theorem many0_none (p : P α) (s : List Char) (hp : p s = none) :
    many0 p s = some ([], s) := by
  unfold many0
  cases s with
  | nil => rfl
  | cons c t =>
    rw [show (c :: t).length = t.length + 1 from rfl, many0F, hp]

theorem many0_cons (p : P α) (s : List Char) (a : α) (r : List Char) (as : List α)
    (r2 : List Char) (hp : p s = some (a, r)) (hlt : r.length < s.length)
    (hrec : many0 p r = some (as, r2)) : many0 p s = some (a :: as, r2) := by
  unfold many0 at hrec ⊢
  obtain ⟨n, hn⟩ : ∃ n, s.length = n + 1 := ⟨s.length - 1, by omega⟩
  rw [hn, many0F, hp]
  dsimp only
  rw [if_pos (by omega : r.length < s.length),
    many0F_fuel p n r.length r (by omega) (by omega), hrec]

theorem takeWhile_all (p : Char → Bool) (l : List Char) :
    ∀ x ∈ l.takeWhile p, p x := fun _ h => List.mem_takeWhile_imp h

theorem dropWhile_head_not (p : Char → Bool) (l : List Char) (x : Char) (xs : List Char)
    (h : l.dropWhile p = x :: xs) : ¬ p x := by
  have := List.head?_dropWhile_not p l
  rw [h] at this
  simpa using this

/-- Maximal munch over a concatenation whose left part satisfies the
predicate and whose right part starts with a failing character. -/
theorem takeWhile_append_boundary (p : Char → Bool) (xs ys : List Char)
    (hxs : ∀ x ∈ xs, p x) (hys : ∀ c, ys.head? = some c → ¬ p c) :
    (xs ++ ys).takeWhile p = xs ∧ (xs ++ ys).dropWhile p = ys := by
  induction xs with
  | nil =>
    simp only [List.nil_append]
    cases ys with
    | nil => simp
    | cons c t =>
      have hc : ¬ p c := hys c rfl
      simp [List.takeWhile_cons, List.dropWhile_cons, hc]
  | cons x xs ih =>
    have hx : p x = true := hxs x (by simp)
    have := ih (fun y hy => hxs y (by simp [hy]))
    simp [List.takeWhile_cons, List.dropWhile_cons, hx, this.1, this.2]

/-- The `many0(alt((alphanumeric1, tag("-"))))` loop of the `name`
parser consumes exactly a run of letters, digits and dashes and stops at
the first character outside that class. -/
theorem many0_nameTail (n : Nat) : ∀ t rest : List Char, t.length ≤ n →
    (∀ c ∈ t, isNameTailC c) → (∀ c, rest.head? = some c → ¬ isNameTailC c) →
    ∃ parts, many0 (alt2 alphanumeric1 (tag ['-'])) (t ++ rest) = some (parts, rest) ∧
      parts.flatten = t := by
  induction n with
  | zero =>
    intro t rest hlen ht hrest
    have hts : t = [] := List.eq_nil_of_length_eq_zero (Nat.le_zero.mp hlen)
    subst hts
    refine ⟨[], ?_, rfl⟩
    simp only [List.nil_append]
    apply many0_none
    cases rest with
    | nil => rfl
    | cons c u =>
      have hc : ¬ isNameTailC c := hrest c rfl
      have hcal : isAlphaNumC c = false := by
        unfold isNameTailC at hc
        simp at hc
        simp [hc.1]
      have hcd : ('-' == c) = false := by
        unfold isNameTailC at hc
        simp at hc
        simp [Ne.symm hc.2]
      simp [alt2, alphanumeric1, tag, List.takeWhile_cons, hcal, List.isPrefixOf, hcd]
  | succ n ih =>
    intro t rest hlen ht hrest
    cases t with
    | nil =>
      have := ih [] rest (by simp) (by simp) hrest
      simpa using this
    | cons c t' =>
      by_cases hal : isAlphaNumC c
      · set a := (c :: t').takeWhile isAlphaNumC with ha
        set b := (c :: t').dropWhile isAlphaNumC with hb
        have hab : a ++ b = c :: t' := List.takeWhile_append_dropWhile isAlphaNumC (c :: t')
        have hane : a ≠ [] := by
          rw [ha, List.takeWhile_cons, hal]
          simp
        have haall : ∀ x ∈ a, isAlphaNumC x := takeWhile_all _ _
        have hbmem : ∀ x ∈ b, isNameTailC x := by
          intro x hx
          exact ht x ((List.dropWhile_sublist isAlphaNumC).mem hx)
        have hbhead : ∀ d, (b ++ rest).head? = some d → ¬ isAlphaNumC d := by
          intro d hd
          cases hbv : b with
          | nil =>
            rw [hbv] at hd
            simp at hd
            intro hdal
            exact hrest d hd (by unfold isNameTailC; simp [hdal])
          | cons e b' =>
            rw [hbv] at hd
            simp at hd
            have := dropWhile_head_not isAlphaNumC (c :: t') e b' hbv
            rw [hd] at this
            exact this
        have hsplit : (c :: t') ++ rest = a ++ (b ++ rest) := by
          rw [← List.append_assoc, hab]
        have htw := takeWhile_append_boundary isAlphaNumC a (b ++ rest) haall hbhead
        have hstep : alt2 alphanumeric1 (tag ['-']) ((c :: t') ++ rest) =
            some (a, b ++ rest) := by
          unfold alt2 alphanumeric1
          rw [hsplit, htw.1, htw.2, if_neg hane]
        have hagt : 0 < a.length := List.length_pos.mpr hane
        have hlen2 : a.length + b.length = t'.length + 1 := by
          have h3 := congrArg List.length hab
          simp at h3
          omega
        have hlen3 : t'.length + 1 ≤ n + 1 := by simpa using hlen
        obtain ⟨parts', hparts', hflat'⟩ := ih b rest (by omega) hbmem hrest
        refine ⟨a :: parts', ?_, by simp [hflat', hab]⟩
        apply many0_cons _ _ _ _ _ _ hstep _ hparts'
        simp
        omega
      · have hcd : c = '-' := by
          have h2 := ht c (by simp)
          unfold isNameTailC at h2
          simp only [Bool.or_eq_true] at h2
          rcases h2 with h3 | h3
          · exact absurd h3 hal
          · simpa using h3
        subst hcd
        have hstep : alt2 alphanumeric1 (tag ['-']) (('-' :: t') ++ rest) =
            some (['-'], t' ++ rest) := by
          simp [alt2, alphanumeric1, tag, List.takeWhile_cons,
            show isAlphaNumC '-' = false from rfl, List.isPrefixOf]
        obtain ⟨parts', hparts', hflat'⟩ := ih t' rest (by simpa using hlen)
          (fun d hd => ht d (by simp [hd])) hrest
        refine ⟨['-'] :: parts', ?_, by simp [hflat']⟩
        apply many0_cons _ _ _ _ _ _ hstep _ hparts'
        simp

/-- The `name` parser consumes exactly a full match of the name
production when the following character cannot continue a name. -/
theorem name_complete (nm rest : List Char) (h : nameValid nm)
    (hrest : ∀ c, rest.head? = some c → ¬ isNameTailC c) :
    name (nm ++ rest) = some (nm, rest) := by
  unfold nameValid at h
  cases nm with
  | nil => simp at h
  | cons c t =>
    simp only [Bool.and_eq_true, List.all_eq_true] at h
    obtain ⟨hc, ht⟩ := h
    set a := (c :: t).takeWhile isAlphaC with ha
    set b := (c :: t).dropWhile isAlphaC with hb
    have hab : a ++ b = c :: t := List.takeWhile_append_dropWhile isAlphaC (c :: t)
    have hane : a ≠ [] := by
      rw [ha, List.takeWhile_cons, hc]
      simp
    have haall : ∀ x ∈ a, isAlphaC x := takeWhile_all _ _
    have hbmem : ∀ x ∈ b, isNameTailC x := by
      intro x hx
      have hxmem : x ∈ c :: t := (List.dropWhile_sublist isAlphaC).mem hx
      rcases List.mem_cons.mp hxmem with rfl | hxt
      · unfold isNameTailC isAlphaNumC
        simp [hc]
      · exact ht x hxt
    have hbhead : ∀ d, (b ++ rest).head? = some d → ¬ isAlphaC d := by
      intro d hd
      cases hbv : b with
      | nil =>
        rw [hbv] at hd
        simp at hd
        intro hdal
        exact hrest d hd (by unfold isNameTailC isAlphaNumC; simp [hdal])
      | cons e b' =>
        rw [hbv] at hd
        simp at hd
        have := dropWhile_head_not isAlphaC (c :: t) e b' hbv
        rw [hd] at this
        exact this
    have hsplit : (c :: t) ++ rest = a ++ (b ++ rest) := by
      rw [← List.append_assoc, hab]
    have htw := takeWhile_append_boundary isAlphaC a (b ++ rest) haall hbhead
    obtain ⟨parts, hparts, hflat⟩ := many0_nameTail b.length b rest (le_refl _) hbmem hrest
    unfold name alpha1
    rw [hsplit, htw.1, htw.2, if_neg hane]
    dsimp only
    rw [hparts]
    dsimp only
    rw [hflat, show a ++ b = c :: t from hab]

theorem many0_isSome (p : P α) : ∀ s, ∃ as r2, many0 p s = some (as, r2) := by
  intro s
  unfold many0
  obtain ⟨f, hf⟩ : ∃ f, s.length = f := ⟨s.length, rfl⟩
  rw [hf]
  clear hf
  induction f generalizing s with
  | zero => exact ⟨[], s, rfl⟩
  | succ f ih =>
    rw [many0F]
    cases hp : p s with
    | none => exact ⟨[], s, rfl⟩
    | some ar =>
      obtain ⟨a, r⟩ := ar
      dsimp only
      by_cases hlt : r.length < s.length
      · rw [if_pos hlt]
        obtain ⟨as, r2, h⟩ := ih r
        rw [h]
        exact ⟨a :: as, r2, rfl⟩
      · rw [if_neg hlt]
        exact ⟨[], s, rfl⟩

/-- Dropping a plain (non-special) prefix preserves argument
well-formedness. -/
theorem argOk_drop_plain : ∀ xs ys : List Char,
    (∀ x ∈ xs, argSpecials.contains x = false) → argOk (xs ++ ys) → argOk ys := by
  intro xs
  induction xs with
  | nil => exact fun ys _ h => h
  | cons x xs ih =>
    intro ys hx h
    have hxs : argSpecials.contains x = false := hx x (by simp)
    have hxb : x ≠ '\\' := by
      intro hcon
      subst hcon
      simp [argSpecials] at hxs
    rw [List.cons_append] at h
    unfold argOk at h
    rw [if_neg hxb] at h
    simp only [Bool.and_eq_true] at h
    exact ih ys (fun y hy => hx y (by simp [hy])) h.2

/-- The `many0(none_of cs)` loop is maximal munch of the complement
character class. -/
theorem many0_noneOf (cs : List Char) : ∀ s : List Char,
    many0 (noneOf cs) s =
      some (s.takeWhile (fun c => !cs.contains c), s.dropWhile (fun c => !cs.contains c)) := by
  intro s
  induction s with
  | nil => exact many0_none _ _ rfl
  | cons c t ih =>
    by_cases hc : c ∈ cs
    · have hcc : cs.contains c = true := by simpa using hc
      have hstep : noneOf cs (c :: t) = none := by
        unfold noneOf
        dsimp only
        rw [if_pos hc]
      rw [many0_none _ _ hstep]
      simp [List.takeWhile_cons, List.dropWhile_cons, hc]
    · have h1 : (c :: t).takeWhile (fun e => !cs.contains e) =
          c :: t.takeWhile (fun e => !cs.contains e) := by
        simp [List.takeWhile_cons, hc]
      have h2 : (c :: t).dropWhile (fun e => !cs.contains e) =
          t.dropWhile (fun e => !cs.contains e) := by
        simp [List.dropWhile_cons, hc]
      rw [h1, h2]
      exact many0_cons _ _ _ _ _ _
        (by unfold noneOf; dsimp only; rw [if_neg hc]) (by simp) ih

/-- `plain` on a string starting with a non-special character is maximal
munch of non-special characters. -/
theorem plain_run (c : Char) (w2 : List Char) (hc : argSpecials.contains c = false) :
    plain (c :: w2) =
      some ((c :: w2).takeWhile (fun e => !argSpecials.contains e),
            (c :: w2).dropWhile (fun e => !argSpecials.contains e)) := by
  have hcmem : ¬ c ∈ argSpecials := by simpa using hc
  have hstep : noneOf argSpecials (c :: w2) = some (c, w2) := by
    unfold noneOf
    dsimp only
    rw [if_neg hcmem]
  unfold plain many1
  rw [hstep]
  dsimp only
  rw [many0_noneOf argSpecials w2]
  dsimp only
  simp [List.takeWhile_cons, List.dropWhile_cons, hcmem]

/-- One iteration of the `argument` loop: an `escape` token or a maximal
`plain` run is consumed off the front of a well-formed argument. -/
theorem arg_step (a rest : List Char) (hne : a ≠ []) (hok : argOk a)
    (hrest : ∀ c, rest.head? = some c → argSpecials.contains c = true ∧ c ≠ '\\') :
    ∃ x b, a = x ++ b ∧ x ≠ [] ∧ argOk b ∧
      alt2 escape plain (a ++ rest) = some (x, b ++ rest) := by
  cases a with
  | nil => exact absurd rfl hne
  | cons c a2 =>
    by_cases hc : c = '\\'
    · subst hc
      unfold argOk at hok
      rw [if_pos rfl] at hok
      cases a2 with
      | nil => simp at hok
      | cons d a3 =>
        simp only [Bool.and_eq_true] at hok
        obtain ⟨hd, hok3⟩ := hok
        refine ⟨['\\', d], a3, rfl, by simp, hok3, ?_⟩
        have hdmem : d ∈ escCodes := by simpa using hd
        unfold alt2 escape charP oneOf
        simp [hdmem]
    · unfold argOk at hok
      rw [if_neg hc] at hok
      simp only [Bool.and_eq_true] at hok
      obtain ⟨hcs, hok2⟩ := hok
      have hcsf : argSpecials.contains c = false := by
        rcases hv : argSpecials.contains c with _ | _
        · rfl
        · rw [hv] at hcs; simp at hcs
      have hcmem : ¬ c ∈ argSpecials := by simpa using hcsf
      set pred : Char → Bool := fun e => !argSpecials.contains e with hpred
      set x := (c :: a2).takeWhile pred with hx
      set b := (c :: a2).dropWhile pred with hb
      have hxb : x ++ b = c :: a2 := List.takeWhile_append_dropWhile pred (c :: a2)
      have hxne : x ≠ [] := by
        rw [hx, List.takeWhile_cons]
        simp [hpred, hcmem]
      have hxall : ∀ e ∈ x, argSpecials.contains e = false := by
        intro e he
        have h2 := List.mem_takeWhile_imp he
        rw [hpred] at h2
        simpa using h2
      have haok : argOk (c :: a2) := by
        unfold argOk
        rw [if_neg hc]
        simp [hcmem, hok2]
      have hbok : argOk b := argOk_drop_plain x b hxall (by rw [hxb]; exact haok)
      have hbhead : ∀ e b', b = e :: b' → pred e = false := by
        intro e b' hbv
        have h2 : List.dropWhile pred (c :: a2) = e :: b' := by rw [← hb]; exact hbv
        have h3 := dropWhile_head_not pred (c :: a2) e b' h2
        simpa using h3
      refine ⟨x, b, hxb.symm, hxne, hbok, ?_⟩
      have hsplit : (c :: a2) ++ rest = x ++ (b ++ rest) := by
        rw [← List.append_assoc, hxb]
      have htw := takeWhile_append_boundary pred x (b ++ rest)
        (fun e he => by
          have h3 : ¬ e ∈ argSpecials := by simpa using hxall e he
          simp [hpred, h3])
        (by
          intro e he
          cases hbv : b with
          | nil =>
            rw [hbv] at he
            simp at he
            have h2 := hrest e he
            have h3 : e ∈ argSpecials := by simpa using h2.1
            simp [hpred, h3]
          | cons f b' =>
            rw [hbv] at he
            simp at he
            have h2 := hbhead f b' hbv
            subst he
            simp [h2])
      have hesc : escape ((c :: a2) ++ rest) = none := by
        unfold escape charP
        rw [List.cons_append]
        dsimp only
        rw [if_neg hc]
      unfold alt2
      rw [hesc]
      rw [List.cons_append]
      rw [plain_run c (a2 ++ rest) hcsf]
      rw [show (c :: (a2 ++ rest)) = (c :: a2) ++ rest from rfl, hsplit, htw.1, htw.2]

/-- Neither an `escape` token nor a `plain` run can start at an argument
terminator. -/
theorem alt2_arg_none (rest : List Char)
    (hrest : ∀ c, rest.head? = some c → argSpecials.contains c = true ∧ c ≠ '\\') :
    alt2 escape plain rest = none := by
  cases rest with
  | nil => rfl
  | cons c u =>
    obtain ⟨hcs, hcb⟩ := hrest c rfl
    have hmem : c ∈ argSpecials := by simpa using hcs
    have h1 : escape (c :: u) = none := by
      unfold escape charP
      dsimp only
      rw [if_neg hcb]
    have h2 : plain (c :: u) = none := by
      unfold plain many1 noneOf
      dsimp only
      rw [if_pos hmem]
    unfold alt2
    rw [h1, h2]

/-- The `many0(alt((escape, plain)))` loop consumes exactly a well-formed
argument and stops at a terminator. -/
theorem many0_arg (n : Nat) : ∀ a rest : List Char, a.length ≤ n → argOk a →
    (∀ c, rest.head? = some c → argSpecials.contains c = true ∧ c ≠ '\\') →
    ∃ parts, many0 (alt2 escape plain) (a ++ rest) = some (parts, rest) ∧
      parts.flatten = a := by
  induction n with
  | zero =>
    intro a rest hlen hok hrest
    have has : a = [] := List.eq_nil_of_length_eq_zero (Nat.le_zero.mp hlen)
    subst has
    exact ⟨[], by simpa using many0_none _ _ (alt2_arg_none rest hrest), rfl⟩
  | succ n ih =>
    intro a rest hlen hok hrest
    cases hae : a with
    | nil => exact ⟨[], by simpa using many0_none _ _ (alt2_arg_none rest hrest), rfl⟩
    | cons c a2 =>
      subst hae
      obtain ⟨x, b, hab, hxne, hbok, hstep⟩ := arg_step (c :: a2) rest (by simp) hok hrest
      have hxlen : 0 < x.length := List.length_pos.mpr hxne
      have hablen : x.length + b.length = a2.length + 1 := by
        have h3 := congrArg List.length hab
        simp at h3
        omega
      have hlen2 : a2.length + 1 ≤ n + 1 := by simpa using hlen
      obtain ⟨parts', hp', hf'⟩ := ih b rest (by omega) hbok hrest
      refine ⟨x :: parts', ?_, by simp [hf', hab.symm]⟩
      apply many0_cons _ _ _ _ _ _ hstep _ hp'
      simp
      omega

/-- The `argument` parser consumes exactly a full match of the argument
production when the following character is a terminator other than a
backslash. -/
theorem argument_complete (a rest : List Char) (h : argValid a)
    (hrest : ∀ c, rest.head? = some c → argSpecials.contains c = true ∧ c ≠ '\\') :
    argument (a ++ rest) = some (a, rest) := by
  unfold argValid at h
  simp only [Bool.and_eq_true] at h
  have hne : a ≠ [] := by
    intro hcon
    rw [hcon] at h
    simp at h
  have hok : argOk a := h.2
  obtain ⟨x, b, hab, hxne, hbok, hstep⟩ := arg_step a rest hne hok hrest
  obtain ⟨parts', hp', hf'⟩ := many0_arg b.length b rest (le_refl _) hbok hrest
  unfold argument many1
  rw [hstep]
  dsimp only
  rw [hp']
  dsimp only
  rw [show (x :: parts').flatten = x ++ parts'.flatten from rfl, hf', ← hab]

theorem digitChar_toNat {d : Nat} (h : d < 10) : (Nat.digitChar d).toNat = 48 + d := by
  interval_cases d <;> decide

theorem digitChar_isDigit {d : Nat} (h : d < 10) : isDigitC (Nat.digitChar d) = true := by
  interval_cases d <;> decide

theorem digitChar_ne_plus {d : Nat} (h : d < 10) : Nat.digitChar d ≠ '+' := by
  interval_cases d <;> decide

theorem digitChar_nonzero_mem {d : Nat} (h : d < 10) (h0 : d ≠ 0) :
    Nat.digitChar d ∈ ['1', '2', '3', '4', '5', '6', '7', '8', '9'] := by
  interval_cases d <;> first | (exact absurd rfl h0) | decide

/-- Folding Rust's decimal accumulator over the rendered digits recovers
the number. -/
theorem foldl_digits (L : List Nat) (hL : ∀ d ∈ L, d < 10) (acc : Nat) :
    (L.reverse.map Nat.digitChar).foldl (fun a c => 10 * a + (c.toNat - 48)) acc =
      acc * 10 ^ L.length + Nat.ofDigits 10 L := by
  induction L generalizing acc with
  | nil => simp
  | cons d L' ih =>
    have hd : d < 10 := hL d (by simp)
    rw [List.reverse_cons, List.map_append, List.foldl_append]
    rw [ih (fun e he => hL e (by simp [he])) acc]
    simp only [List.map_cons, List.map_nil, List.foldl_cons, List.foldl_nil]
    rw [digitChar_toNat hd]
    rw [Nat.ofDigits_cons]
    have hsub : 48 + d - 48 = d := by omega
    rw [hsub, List.length_cons, pow_succ]
    ring

theorem natDecimal_all_digits (n : Nat) : ∀ c ∈ natDecimal n, isDigitC c = true := by
  intro c hc
  rw [natDecimal_eq] at hc
  split at hc
  · simp at hc
    subst hc
    decide
  · simp at hc
    obtain ⟨d, hd, hdc⟩ := hc
    subst hdc
    exact digitChar_isDigit (Nat.digits_lt_base (by norm_num) hd)

/-- The decimal rendering of a positive number starts with a nonzero
digit. -/
theorem natDecimal_pos_head (n : Nat) (h0 : 0 < n) :
    ∃ d ds, natDecimal n = d :: ds ∧
      d ∈ ['1', '2', '3', '4', '5', '6', '7', '8', '9'] ∧
      (∀ c ∈ ds, isDigitC c = true) := by
  have hne : Nat.digits 10 n ≠ [] := Nat.digits_ne_nil_iff_ne_zero.mpr (by omega)
  have hsplit : Nat.digits 10 n =
      (Nat.digits 10 n).dropLast ++ [(Nat.digits 10 n).getLast hne] :=
    (List.dropLast_append_getLast hne).symm
  have hrev : (Nat.digits 10 n).reverse =
      (Nat.digits 10 n).getLast hne :: (Nat.digits 10 n).dropLast.reverse := by
    conv_lhs => rw [hsplit]
    rw [List.reverse_append]
    rfl
  have hlast10 : (Nat.digits 10 n).getLast hne < 10 :=
    Nat.digits_lt_base (by norm_num) (List.getLast_mem hne)
  have hlast0 : (Nat.digits 10 n).getLast hne ≠ 0 := Nat.getLast_digit_ne_zero 10 (by omega)
  refine ⟨Nat.digitChar ((Nat.digits 10 n).getLast hne),
    (Nat.digits 10 n).dropLast.reverse.map Nat.digitChar, ?_, ?_, ?_⟩
  · rw [natDecimal_eq, if_neg (by omega), hrev]
    rfl
  · exact digitChar_nonzero_mem hlast10 hlast0
  · intro c hc
    rw [List.mem_map] at hc
    obtain ⟨d, hd, hdc⟩ := hc
    rw [List.mem_reverse] at hd
    subst hdc
    exact digitChar_isDigit
      (Nat.digits_lt_base (by norm_num) (List.mem_of_mem_dropLast hd))

/-- Rust's `str::parse::<u32>` applied to the decimal rendering of a
number below `2^32` recovers it. -/
theorem parseU32_natDecimal (n : Nat) (h32 : n < 2 ^ 32) :
    parseU32 (natDecimal n) = some n := by
  by_cases h0 : n = 0
  · subst h0
    decide
  · obtain ⟨d, ds, hnd, hdmem, hds⟩ := natDecimal_pos_head n (by omega)
    have hddig : isDigitC d = true := by
      apply natDecimal_all_digits n
      rw [hnd]
      simp
    have hdplus : d ≠ '+' := by
      fin_cases hdmem <;> decide
    have hfold : (natDecimal n).foldl (fun a c => 10 * a + (c.toNat - 48)) 0 = n := by
      rw [natDecimal_eq, if_neg h0]
      rw [foldl_digits (Nat.digits 10 n) (fun e he => Nat.digits_lt_base (by norm_num) he) 0]
      simp [Nat.ofDigits_digits]
    unfold parseU32
    rw [hnd]
    dsimp only
    simp only [List.head?_cons, Option.some.injEq]
    simp only [if_neg hdplus]
    rw [if_pos ⟨by simp, by
      rw [← hnd]
      exact List.all_eq_true.mpr (natDecimal_all_digits n)⟩]
    rw [← hnd, hfold, if_pos h32]

/-- The `id` parser consumes exactly `[n]` for a rendered positive
`u32`. -/
theorem id_complete (n : Nat) (rest : List Char) (h0 : 0 < n) (h32 : n < 2 ^ 32) :
    id ('[' :: (natDecimal n ++ (']' :: rest))) = some (n, rest) := by
  obtain ⟨d, ds, hnd, hdmem, hds⟩ := natDecimal_pos_head n h0
  have htw := takeWhile_append_boundary isDigitC ds (']' :: rest) hds
    (by
      intro c hc
      simp at hc
      subst hc
      decide)
  unfold id
  rw [show charP '[' ('[' :: (natDecimal n ++ (']' :: rest))) =
    some ('[', natDecimal n ++ (']' :: rest)) from by
      unfold charP; dsimp only; rw [if_pos rfl]]
  dsimp only
  rw [hnd, List.cons_append]
  rw [show oneOf ['1', '2', '3', '4', '5', '6', '7', '8', '9'] (d :: (ds ++ ']' :: rest)) =
    some (d, ds ++ ']' :: rest) from by
      unfold oneOf; dsimp only; rw [if_pos hdmem]]
  dsimp only
  rw [show digit0 (ds ++ ']' :: rest) = some (ds, ']' :: rest) from by
    unfold digit0; rw [htw.1, htw.2]]
  dsimp only
  rw [show charP ']' (']' :: rest) = some (']', rest) from by
    unfold charP; dsimp only; rw [if_pos rfl]]
  dsimp only
  rw [show d :: ds = natDecimal n from hnd.symm, parseU32_natDecimal n h32]

theorem whitespace_one (rest : List Char)
    (hrest : ∀ c, rest.head? = some c → ¬ (c = ' ' ∨ c = '\t')) :
    whitespace (' ' :: rest) = some ([' '], rest) := by
  have hstep : oneOf [' ', '\t'] (' ' :: rest) = some (' ', rest) := by
    unfold oneOf
    dsimp only
    rw [if_pos (by decide)]
  have hstop : oneOf [' ', '\t'] rest = none := by
    unfold oneOf
    cases rest with
    | nil => rfl
    | cons c u =>
      dsimp only
      rw [if_neg (by
        intro hcon
        exact hrest c rfl (by simpa using hcon))]
  unfold whitespace many1
  rw [hstep]
  dsimp only
  rw [many0_none _ _ hstop]

theorem whitespace_none (s : List Char)
    (hs : ∀ c, s.head? = some c → ¬ (c = ' ' ∨ c = '\t')) :
    whitespace s = none := by
  have hstop : oneOf [' ', '\t'] s = none := by
    unfold oneOf
    cases s with
    | nil => rfl
    | cons c u =>
      dsimp only
      rw [if_neg (by
        intro hcon
        exact hs c rfl (by simpa using hcon))]
  unfold whitespace many1
  rw [hstop]

/-- The argument loop of the `message` parser: one space then one full
argument, repeated, stopping at the newline. -/
theorem args_loop (args : List (List Char)) (rest : List Char)
    (hargs : ∀ a ∈ args, argValid a = true) (hrest : rest.head? = some '\n') :
    many0 (preceded whitespace argument)
      ((args.map (fun a => ' ' :: a)).flatten ++ rest) = some (args, rest) := by
  induction args with
  | nil =>
    simp only [List.map_nil, List.flatten_nil, List.nil_append]
    apply many0_none
    unfold preceded
    rw [whitespace_none rest (by
      intro c hc hor
      rw [hrest] at hc
      have hcn : c = '\n' := by simpa using hc.symm
      subst hcn
      rcases hor with h | h <;> exact absurd h (by decide))]
  | cons a as ih =>
    have hav := hargs a (by simp)
    have hane : a ≠ [] := by
      intro hcon
      rw [hcon] at hav
      simp [argValid] at hav
    obtain ⟨c0, a', ha⟩ : ∃ c0 a', a = c0 :: a' := by
      cases a with
      | nil => exact absurd rfl hane
      | cons c0 a' => exact ⟨c0, a', rfl⟩
    have hok : argOk a := by
      unfold argValid at hav
      simp only [Bool.and_eq_true] at hav
      exact hav.2
    have hc0 : ¬ (c0 = ' ' ∨ c0 = '\t') := by
      rw [ha] at hok
      unfold argOk at hok
      by_cases hb : c0 = '\\'
      · subst hb
        intro hor
        rcases hor with h | h <;> exact absurd h (by decide)
      · rw [if_neg hb] at hok
        simp only [Bool.and_eq_true] at hok
        have hcs := hok.1
        intro hor
        rcases hor with h | h <;>
          · subst h
            simp [argSpecials] at hcs
    set X := (as.map (fun a => ' ' :: a)).flatten ++ rest with hX
    have hXbound : ∀ c, X.head? = some c → argSpecials.contains c = true ∧ c ≠ '\\' := by
      intro c hc
      rw [hX] at hc
      cases as with
      | nil =>
        simp only [List.map_nil, List.flatten_nil, List.nil_append] at hc
        rw [hrest] at hc
        have hcn : c = '\n' := by simpa using hc.symm
        subst hcn
        exact ⟨by decide, by decide⟩
      | cons b bs =>
        simp only [List.map_cons, List.flatten_cons, List.cons_append,
          List.head?_cons, Option.some.injEq] at hc
        subst hc
        exact ⟨by decide, by decide⟩
    have hXhead : ∀ c, (a ++ X).head? = some c → ¬ (c = ' ' ∨ c = '\t') := by
      intro c hc
      rw [ha] at hc
      simp at hc
      subst hc
      exact hc0
    have hstep : preceded whitespace argument (' ' :: (a ++ X)) = some (a, X) := by
      unfold preceded
      rw [whitespace_one (a ++ X) hXhead]
      exact argument_complete a X hav hXbound
    simp only [List.map_cons, List.flatten_cons]
    rw [show ((' ' :: a) ++ (as.map (fun a => ' ' :: a)).flatten) ++ rest =
      ' ' :: (a ++ X) from by rw [hX]; simp]
    apply many0_cons _ _ _ _ _ _ hstep _ (ih (fun b hb => hargs b (by simp [hb])))
    simp
    omega

/-- The sigil of each message kind parses back to that kind. -/
theorem kind_sigil (k : MessageKind) (rest : List Char) :
    kind ((match k with
      | MessageKind.Request => '?'
      | MessageKind.Reply => '!'
      | MessageKind.Inform => '#') :: rest) = some (k, rest) := by
  cases k <;> rfl

/-- The serialization of a message whose name, arguments and id conform
to the grammar is parsed back, in full, to the same message. -/
theorem message_toStr_complete (m : Message) (hnm : nameValid m.name)
    (hargs : ∀ a ∈ m.arguments, argValid a)
    (hid : ∀ n ∈ m.id, 0 < n ∧ n < 2 ^ 32) :
    message (Message.toStr m) = some (m, []) := by
  obtain ⟨k, nm, i, args⟩ := m
  simp only at hnm hargs hid
  set argsStr : List Char := (args.map (fun a => ' ' :: a)).flatten with hargsStr
  have hargsStrHead : ∀ c, (argsStr ++ ['\n']).head? = some c → c = ' ' ∨ c = '\n' := by
    intro c hc
    rw [hargsStr] at hc
    cases args with
    | nil =>
      simp at hc
      right
      exact hc.symm
    | cons a as =>
      simp only [List.map_cons, List.flatten_cons, List.cons_append,
        List.head?_cons, Option.some.injEq] at hc
      left
      exact hc.symm
  have hargsmain : many0 (preceded whitespace argument) (argsStr ++ ['\n']) =
      some (args, ['\n']) := args_loop args ['\n'] hargs rfl
  have hwsnone : whitespace ['\n'] = none :=
    whitespace_none ['\n'] (by
      intro c hc hor
      have hcn : c = '\n' := by simpa using hc.symm
      subst hcn
      rcases hor with h | h <;> exact absurd h (by decide))
  have heolstep : alt2 eol eofP ['\n'] = some (['\n'], []) := by rfl
  cases i with
  | some n =>
    have hn := hid n (by simp)
    have hts : Message.toStr ⟨k, nm, some n, args⟩ = (match k with
        | MessageKind.Request => '?'
        | MessageKind.Reply => '!'
        | MessageKind.Inform => '#') ::
          (nm ++ ('[' :: (natDecimal n ++ (']' :: (argsStr ++ ['\n']))))) := by
      cases k <;> simp [Message.toStr, hargsStr]
    have hhead1 : ∀ c, ('[' :: (natDecimal n ++ (']' :: (argsStr ++ ['\n'])))).head? =
        some c → ¬ isNameTailC c := by
      intro c hc
      simp at hc
      subst hc
      decide
    unfold message
    rw [hts, kind_sigil k]
    simp only [Option.some_bind]
    rw [name_complete nm _ hnm hhead1]
    simp only [Option.some_bind]
    unfold optP
    rw [id_complete n (argsStr ++ ['\n']) hn.1 hn.2]
    simp only [Option.some_bind]
    rw [hargsmain]
    simp only [Option.some_bind]
    rw [hwsnone]
    simp only [Option.some_bind]
    rw [heolstep]
    simp only [Option.some_bind]
    rfl
  | none =>
    have hts : Message.toStr ⟨k, nm, none, args⟩ = (match k with
        | MessageKind.Request => '?'
        | MessageKind.Reply => '!'
        | MessageKind.Inform => '#') :: (nm ++ (argsStr ++ ['\n'])) := by
      cases k <;> simp [Message.toStr, hargsStr]
    have hhead1 : ∀ c, (argsStr ++ ['\n']).head? = some c → ¬ isNameTailC c := by
      intro c hc
      rcases hargsStrHead c hc with h | h <;> (subst h; decide)
    have hidnone : id (argsStr ++ ['\n']) = none := by
      unfold id
      rw [show charP '[' (argsStr ++ ['\n']) = none from by
        unfold charP
        cases hv : argsStr ++ ['\n'] with
        | nil => rfl
        | cons c u =>
          dsimp only
          rw [if_neg (by
            have hcc : c = ' ' ∨ c = '\n' := hargsStrHead c (by rw [hv]; rfl)
            rcases hcc with h | h <;> (subst h; decide))]]
    unfold message
    rw [hts, kind_sigil k]
    simp only [Option.some_bind]
    rw [name_complete nm _ hnm hhead1]
    simp only [Option.some_bind]
    unfold optP
    rw [hidnone]
    simp only [Option.some_bind]
    rw [hargsmain]
    simp only [Option.some_bind]
    rw [hwsnone]
    simp only [Option.some_bind]
    rw [heolstep]
    simp only [Option.some_bind]
    rfl

end Protocol

/-! ## The argument codec of `src/messages/common.rs`

Argument conversion works over the raw wire tokens (`List Char`); the
stateful `from_arguments(&mut impl Iterator<Item = String>)` decoders
are modelled as functions from the remaining-argument list to an
`Except` of the value paired with the arguments left over. -/

/-- The remaining arguments of a message during composite decoding. -/
abbrev Args : Type := List (List Char)

namespace Common

/-- `impl FromKatcpArgument for String`: unescape, infallible. -/
def stringFromArgument (s : List Char) : Except KatcpError (List Char) :=
  .ok (Utils.unescape s)

/-- `impl ToKatcpArgument for String`: escape. -/
def stringToArgument (s : List Char) : List Char :=
  Utils.escape s

/-- `impl FromKatcpArgument for u32`. -/
def u32FromArgument (s : List Char) : Except KatcpError Nat :=
  match Protocol.parseU32 s with
  | some n => .ok n
  | none => .error .BadArgument

/-- `impl ToKatcpArgument for u32` (`to_string`). -/
def u32ToArgument (n : Nat) : List Char :=
  natDecimal n

/-- `impl FromKatcpArgument for bool`: exactly `1` or `0`. -/
def boolFromArgument (s : List Char) : Except KatcpError Bool :=
  if s = ['1'] then .ok true
  else if s = ['0'] then .ok false
  else .error .BadArgument

/-- `impl ToKatcpArgument for bool`. -/
def boolToArgument (b : Bool) : List Char :=
  if b then ['1'] else ['0']

/-- `impl ToKatcpArgument for Option<T>`: `\@` when absent, otherwise
the inner encoding. -/
def optionToArgument (toArg : α → List Char) (v : Option α) : List Char :=
  match v with
  | some x => toArg x
  | none => ['\\', '@']

/-- `impl FromKatcpArgument for Option<T>`: `\@` decodes to `None`,
anything else delegates to the inner decoder. -/
def optionFromArgument (fromArg : List Char → Except KatcpError α) (s : List Char) :
    Except KatcpError (Option α) :=
  if s = ['\\', '@'] then .ok none
  else (fromArg s).map some

/-- Strip one leading sign character, as Rust's numeric and float
parsers do. -/
def stripSign (s : List Char) : List Char :=
  if s.head? = some '+' ∨ s.head? = some '-' then s.tail else s

def digitsOnly (l : List Char) : Bool :=
  !l.isEmpty && l.all isDigitC

/-- The mantissa production of Rust's float grammar:
`digits [ '.' digits? ] | '.' digits`. -/
def mantissaOk (l : List Char) : Bool :=
  let intPart := l.takeWhile isDigitC
  let rest := l.drop intPart.length
  match rest with
  | [] => !intPart.isEmpty
  | '.' :: frac => (!intPart.isEmpty || !frac.isEmpty) && frac.all isDigitC
  | _ => false

/-- The full number production of Rust's float grammar, with an optional
`e`/`E` exponent. -/
def numberOk (l : List Char) : Bool :=
  let mant := l.takeWhile (fun c => !(c = 'e' || c = 'E'))
  let rest := l.drop mant.length
  match rest with
  | [] => mantissaOk mant
  | _ :: exp => mantissaOk mant && digitsOnly (stripSign exp)

/-- Whether Rust's `str::parse::<f32>`/`::<f64>` accepts the token:
optional sign, then `inf`, `infinity` or `nan` (case-insensitive) or a
decimal/scientific number. -/
def rustFloatOk (s : List Char) : Bool :=
  let b := stripSign s
  let lb := b.map Char.toLower
  (!s.isEmpty) &&
    (lb == ['i', 'n', 'f'] || lb == ['i', 'n', 'f', 'i', 'n', 'i', 't', 'y'] ||
      lb == ['n', 'a', 'n'] || numberOk b)

/-- The numeric value of an accepted float token (Lean `Float` is an
IEEE double; `f32` rounding is not modelled, and no theorem in this file
inspects a float's value — only parse success or failure matters). -/
def floatVal (s : List Char) : Float :=
  let neg := s.head? = some '-'
  let b := stripSign s
  let lb := b.map Char.toLower
  let m :=
    if lb == ['i', 'n', 'f'] || lb == ['i', 'n', 'f', 'i', 'n', 'i', 't', 'y'] then
      (1.0 : Float) / 0.0
    else if lb == ['n', 'a', 'n'] then (0.0 : Float) / 0.0
    else
      let mant := b.takeWhile (fun c => !(c = 'e' || c = 'E'))
      let erest := (b.drop mant.length).drop 1
      let intPart := mant.takeWhile isDigitC
      let frac := (mant.drop intPart.length).drop 1
      let digits := (intPart ++ frac).foldl (fun acc c => 10 * acc + (c.toNat - 48)) 0
      let e10 : Int :=
        (if erest.head? = some '-' then
          -(Int.ofNat ((stripSign erest).foldl (fun acc c => 10 * acc + (c.toNat - 48)) 0))
        else Int.ofNat ((stripSign erest).foldl (fun acc c => 10 * acc + (c.toNat - 48)) 0))
          - Int.ofNat frac.length
      if e10 < 0 then OfScientific.ofScientific digits true e10.natAbs
      else digits.toFloat * (10.0 : Float) ^ (e10.natAbs.toFloat)
  if neg then -m else m

/-- Rust `str::parse` for `f32`/`f64`: syntax check plus value. -/
def parseRustFloat (s : List Char) : Option Float :=
  if rustFloatOk s then some (floatVal s) else none

/-- `impl FromKatcpArgument for f32`. -/
def f32FromArgument (s : List Char) : Except KatcpError Float :=
  match parseRustFloat s with
  | some f => .ok f
  | none => .error .BadArgument

/-- Rust `str::parse::<i64>`: optional sign, then a nonempty all-digit
string within the `i64` range. -/
def parseI64 (s : List Char) : Option Int :=
  let neg : Bool := s.head? = some '-'
  let ds := stripSign s
  if ds ≠ [] ∧ ds.all isDigitC then
    let v : Nat := ds.foldl (fun acc c => 10 * acc + (c.toNat - 48)) 0
    if neg then
      if v ≤ 2 ^ 63 then some (-(v : Int)) else none
    else
      if v < 2 ^ 63 then some (v : Int) else none
  else none

/-- `chrono::DateTime<Utc>` restricted to what the codec stores: whole
seconds since the epoch and a nanosecond part (`Utc.timestamp(secs, nanos)`). -/
structure KatcpTimestamp where
  secs : Int
  nanos : Nat
deriving DecidableEq, Repr

/-- Truncation toward zero, as Rust's `f64 as i64` cast (saturation at
the `i64` range is not modelled; no theorem inspects these values). -/
def f64ToI64 (f : Float) : Int :=
  if f < 0 then -(Int.ofNat (Float.toUInt64 (-f)).toNat)
  else Int.ofNat (Float.toUInt64 f).toNat

/-- `impl FromKatcpArgument for DateTime<Utc>`: parse the whole token as
an `f64`, truncate to seconds, scale the fractional part to
nanoseconds. -/
def dateTimeFromArgument (s : List Char) : Except KatcpError KatcpTimestamp :=
  match parseRustFloat s with
  | none => .error .BadArgument
  | some fractional =>
    let secs := f64ToI64 fractional
    let nanos := (Float.toUInt32 ((fractional - Float.ofInt (f64ToI64 fractional)) * 1e9)).toNat
    .ok ⟨secs, nanos⟩

/-- `RetCode` from `src/messages/common.rs`. -/
inductive RetCode where
  | Ok
  | Invalid
  | Fail
deriving DecidableEq, Repr

/-- Derived `ToKatcpArgument` for `RetCode` (kebab-case labels). -/
def RetCode.toArgument : RetCode → List Char
  | .Ok => ['o', 'k']
  | .Invalid => ['i', 'n', 'v', 'a', 'l', 'i', 'd']
  | .Fail => ['f', 'a', 'i', 'l']

/-- Derived `FromKatcpArgument` for `RetCode`: exact label lookup,
anything else is `BadArgument`. -/
def RetCode.fromArgument (s : List Char) : Except KatcpError RetCode :=
  if s = ['o', 'k'] then .ok .Ok
  else if s = ['i', 'n', 'v', 'a', 'l', 'i', 'd'] then .ok .Invalid
  else if s = ['f', 'a', 'i', 'l'] then .ok .Fail
  else .error .BadArgument

end Common

/-! ## `src/messages/core.rs`: generic replies, Halt/Help, version-connect -/

namespace Core

open Common

/-- `GenericReply`: no data on `Ok`, code and message on error. -/
inductive GenericReply where
  | Ok
  | Error (ret_code : RetCode) (message : List Char)
deriving DecidableEq, Repr

/-- `impl ToKatcpArguments for GenericReply`. -/
def GenericReply.toArguments : GenericReply → Args
  | .Ok => [RetCode.Ok.toArgument]
  | .Error ret_code message => [ret_code.toArgument, stringToArgument message]

/-- `impl FromKatcpArguments for GenericReply`: a leading `ok` consumes
nothing more; `invalid`/`fail` consume exactly one human-readable
string; an unknown code is the `RetCode` decode error. -/
def GenericReply.fromArguments (args : Args) : Except KatcpError (GenericReply × Args) :=
  match args with
  | [] => .error .MissingArgument
  | a :: rest =>
    match RetCode.fromArgument a with
    | .error e => .error e
    | .ok ret_code =>
      match ret_code with
      | .Ok => .ok (.Ok, rest)
      | _ =>
        match rest with
        | [] => .error .MissingArgument
        | m :: rest2 =>
          match stringFromArgument m with
          | .error e => .error e
          | .ok msg => .ok (.Error ret_code msg, rest2)

/-- `IntReply`: a `u32` on `Ok`, code and message on error. -/
inductive IntReply where
  | Ok (num : Nat)
  | Error (ret_code : RetCode) (message : List Char)
deriving DecidableEq, Repr

/-- `impl ToKatcpArguments for IntReply`. -/
def IntReply.toArguments : IntReply → Args
  | .Ok num => [RetCode.Ok.toArgument, u32ToArgument num]
  | .Error ret_code message => [ret_code.toArgument, stringToArgument message]

/-- `impl FromKatcpArguments for IntReply`: the code is decoded first,
then one further argument is read and interpreted as a number on `ok`
or as the human-readable message otherwise. -/
def IntReply.fromArguments (args : Args) : Except KatcpError (IntReply × Args) :=
  match args with
  | [] => .error .MissingArgument
  | a :: rest =>
    match RetCode.fromArgument a with
    | .error e => .error e
    | .ok ret_code =>
      match rest with
      | [] => .error .MissingArgument
      | num_or_msg :: rest2 =>
        match ret_code with
        | .Ok =>
          match u32FromArgument num_or_msg with
          | .error e => .error e
          | .ok n => .ok (.Ok n, rest2)
        | _ =>
          match stringFromArgument num_or_msg with
          | .error e => .error e
          | .ok msg => .ok (.Error ret_code msg, rest2)

/-- `Halt` (derive-generated serde, `Request` and `Reply` variants). -/
inductive Halt where
  | Request
  | Reply (reply : GenericReply)
deriving DecidableEq, Repr

/-- The derive-generated `TryFrom<Message> for Halt`: a name other than
`halt` is `IncorrectType` before any argument is touched.  The generated
`unimplemented!()` panic on the absent `Inform` variant is modelled as
`KatcpError.Unknown`. -/
def Halt.tryFromMessage (m : Message) : Except KatcpError Halt :=
  if m.name ≠ ['h', 'a', 'l', 't'] then .error .IncorrectType
  else
    match m.kind with
    | .Request => .ok .Request
    | .Reply =>
      match GenericReply.fromArguments m.arguments with
      | .error e => .error e
      | .ok (r, _) => .ok (.Reply r)
    | .Inform => .error .Unknown

/-- `Help` (derive-generated serde: named-field `Inform` and `Request`,
unnamed `Reply`). -/
inductive Help where
  | Inform (name description : List Char)
  | Request (name : Option (List Char))
  | Reply (reply : IntReply)
deriving DecidableEq, Repr

/-- The derive-generated `TryFrom<Message> for Help`. Named-field
variants read their fields at fixed argument indexes. -/
def Help.tryFromMessage (m : Message) : Except KatcpError Help :=
  if m.name ≠ ['h', 'e', 'l', 'p'] then .error .IncorrectType
  else
    match m.kind with
    | .Request =>
      match m.arguments.get? 0 with
      | none => .error .MissingArgument
      | some a =>
        match optionFromArgument stringFromArgument a with
        | .error e => .error e
        | .ok nm => .ok (.Request nm)
    | .Reply =>
      match IntReply.fromArguments m.arguments with
      | .error e => .error e
      | .ok (r, _) => .ok (.Reply r)
    | .Inform =>
      match m.arguments.get? 0 with
      | none => .error .MissingArgument
      | some a =>
        match stringFromArgument a with
        | .error e => .error e
        | .ok nm =>
          match m.arguments.get? 1 with
          | none => .error .MissingArgument
          | some b =>
            match stringFromArgument b with
            | .error e => .error e
            | .ok desc => .ok (.Inform nm desc)

/-- `ProtocolFlags` from `src/messages/core.rs`. -/
inductive ProtocolFlags where
  | MultiClient
  | MessageIds
  | TimeoutHints
  | BulkSampling
deriving DecidableEq, Repr

/-- `impl Display for ProtocolFlags`. -/
def ProtocolFlags.toStr : ProtocolFlags → List Char
  | .MultiClient => ['M']
  | .MessageIds => ['I']
  | .TimeoutHints => ['T']
  | .BulkSampling => ['B']

/-- `VersionConnectInform`.  The Rust `flags` field is a
`HashSet<ProtocolFlags>`; a hash set is modelled by the list of its
elements in iteration order, since `to_arguments` iterates it.  Rust's
`HashSet` equality compares the underlying sets, not the iteration
order.  The `device : KatcpAddress` field is represented by its rendered
address token (its `to_argument` form), as nothing here depends on
address parsing. -/
inductive VersionConnectInform where
  | KatcpProtocol (major minor : Nat) (flags : List ProtocolFlags)
  | KatcpLibrary (version build_state : List Char)
  | KatcpDevice (api_version : List Char) (device : List Char) (build_state : List Char)
  | Custom (name version : List Char) (info : Option (List Char))
deriving DecidableEq, Repr

/-- Rust `==` on `VersionConnectInform`: structural except for the flag
set, which is compared as a set (`HashSet::eq`: same size and same
members; with no duplicates this is membership equivalence). -/
def VersionConnectInform.rustEq : VersionConnectInform → VersionConnectInform → Prop
  | .KatcpProtocol ma mi f, .KatcpProtocol ma' mi' f' =>
      ma = ma' ∧ mi = mi' ∧ (∀ x, x ∈ f ↔ x ∈ f')
  | .KatcpLibrary v b, .KatcpLibrary v' b' => v = v' ∧ b = b'
  | .KatcpDevice a d b, .KatcpDevice a' d' b' => a = a' ∧ d = d' ∧ b = b'
  | .Custom n v i, .Custom n' v' i' => n = n' ∧ v = v' ∧ i = i'
  | _, _ => False

/-- The flag list of the `katcp-protocol` variant: the iteration order
the `HashSet` hands to `to_arguments`. -/
def VersionConnectInform.flagOrder : VersionConnectInform → Option (List ProtocolFlags)
  | .KatcpProtocol _ _ flags => some flags
  | _ => none

/-- `flags.iter().map(to_string).reduce(|cur, next| cur + &next)`. -/
def reduceConcat (l : List (List Char)) : Option (List Char) :=
  match l with
  | [] => none
  | x :: xs => some (xs.foldl (fun cur next => cur ++ next) x)

/-- `impl ToKatcpArguments for VersionConnectInform` from
`src/messages/core.rs`: the `katcp-protocol` variant renders
`major.minor[-FLAGS]` with the flags in the set's iteration order. -/
def VersionConnectInform.toArguments : VersionConnectInform → Args
  | .KatcpProtocol major minor flags =>
    let flagsR := reduceConcat (flags.map ProtocolFlags.toStr)
    let flag_str :=
      match flagsR with
      | none => ([] : List Char)
      | some s => '-' :: s
    [['k', 'a', 't', 'c', 'p', '-', 'p', 'r', 'o', 't', 'o', 'c', 'o', 'l'],
      natDecimal major ++ '.' :: (natDecimal minor ++ flag_str)]
  | .KatcpLibrary version build_state =>
    [['k', 'a', 't', 'c', 'p', '-', 'l', 'i', 'b', 'r', 'a', 'r', 'y'],
      stringToArgument version, stringToArgument build_state]
  | .KatcpDevice api_version device build_state =>
    [['k', 'a', 't', 'c', 'p', '-', 'd', 'e', 'v', 'i', 'c', 'e'],
      stringToArgument api_version, device, stringToArgument build_state]
  | .Custom name version info =>
    let prelude := [stringToArgument name, stringToArgument version]
    match info with
    | some s => prelude ++ [stringToArgument s]
    | none => prelude

end Core

/-! ## `src/messages/log.rs`: the Log message family -/

section LogFamily

open Common

/-- `LogLevel`. -/
inductive LogLevel where
  | Off
  | Fatal
  | Error
  | Warn
  | Info
  | Debug
  | Trace
  | All
deriving DecidableEq, Repr

/-- `impl FromStr for LogLevel`. -/
def LogLevel.fromStr (s : List Char) : Except KatcpError LogLevel :=
  if s = ['o', 'f', 'f'] then .ok .Off
  else if s = ['f', 'a', 't', 'a', 'l'] then .ok .Fatal
  else if s = ['e', 'r', 'r', 'o', 'r'] then .ok .Error
  else if s = ['w', 'a', 'r', 'n'] then .ok .Warn
  else if s = ['i', 'n', 'f', 'o'] then .ok .Info
  else if s = ['d', 'e', 'b', 'u', 'g'] then .ok .Debug
  else if s = ['t', 'r', 'a', 'c', 'e'] then .ok .Trace
  else if s = ['a', 'l', 'l'] then .ok .All
  else .error .BadArgument

/-- `Log` from `src/messages/log.rs`. -/
inductive Log where
  | Inform (level : LogLevel) (timestamp : KatcpTimestamp)
      (name message : List Char)
  | Reply (ret_code : RetCode) (level : LogLevel)
  | Request (level : Option LogLevel)
deriving DecidableEq, Repr

/-- `fn str_to_timestamp` from `src/messages/log.rs`: split at the first
`.`, parse the integer part as whole seconds (`i64`), and pass `0` as
the nanosecond part — the fractional text is discarded. -/
def str_to_timestamp (s : List Char) : Except KatcpError KatcpTimestamp :=
  let dot_idx := s.findIdx (fun c => c = '.')
  let sec := s.take dot_idx
  match parseI64 sec with
  | none => .error .BadArgument
  | some v => .ok ⟨v, 0⟩

/-- `fn request_from_message`. -/
def request_from_message (m : Message) : Except KatcpError Log :=
  match m.arguments.get? 0 with
  | none => .ok (.Request none)
  | some s =>
    match LogLevel.fromStr s with
    | .error e => .error e
    | .ok level => .ok (.Request (some level))

/-- `fn reply_from_message`. -/
def reply_from_message (m : Message) : Except KatcpError Log :=
  match m.arguments.get? 0 with
  | none => .error .MissingArgument
  | some a =>
    match RetCode.fromArgument a with
    | .error e => .error e
    | .ok ret_code =>
      match m.arguments.get? 1 with
      | none => .error .MissingArgument
      | some b =>
        match LogLevel.fromStr b with
        | .error e => .error e
        | .ok level => .ok (.Reply ret_code level)

/-- `fn inform_from_message`: level, timestamp (via `str_to_timestamp`),
then unescaped name and message. -/
def inform_from_message (m : Message) : Except KatcpError Log :=
  match m.arguments.get? 0 with
  | none => .error .MissingArgument
  | some a =>
    match LogLevel.fromStr a with
    | .error e => .error e
    | .ok level =>
      match m.arguments.get? 1 with
      | none => .error .MissingArgument
      | some b =>
        match str_to_timestamp b with
        | .error e => .error e
        | .ok time =>
          match m.arguments.get? 2 with
          | none => .error .MissingArgument
          | some c =>
            match m.arguments.get? 3 with
            | none => .error .MissingArgument
            | some d =>
              .ok (.Inform level time (Utils.unescape c) (Utils.unescape d))

/-- `impl TryFrom<Message> for Log` (hand-written in `src/messages/log.rs`):
the name is checked against `log` before anything else. -/
def Log.tryFromMessage (m : Message) : Except KatcpError Log :=
  if m.name ≠ ['l', 'o', 'g'] then .error .IncorrectType
  else
    match m.kind with
    | .Request => request_from_message m
    | .Reply => reply_from_message m
    | .Inform => inform_from_message m

end LogFamily

/-! ## `src/messages/sensors.rs`: sampling strategies and sensor updates -/

namespace Sensors

open Common

/-- `Status` from `src/messages/sensors.rs`. -/
inductive Status where
  | Unknown
  | Nominal
  | Warn
  | Error
  | Failure
  | Unreachable
  | Inactive
deriving DecidableEq, Repr

/-- Derived `ToKatcpArgument` for `Status` (kebab-case labels). -/
def Status.toArgument : Status → List Char
  | .Unknown => ['u', 'n', 'k', 'n', 'o', 'w', 'n']
  | .Nominal => ['n', 'o', 'm', 'i', 'n', 'a', 'l']
  | .Warn => ['w', 'a', 'r', 'n']
  | .Error => ['e', 'r', 'r', 'o', 'r']
  | .Failure => ['f', 'a', 'i', 'l', 'u', 'r', 'e']
  | .Unreachable => ['u', 'n', 'r', 'e', 'a', 'c', 'h', 'a', 'b', 'l', 'e']
  | .Inactive => ['i', 'n', 'a', 'c', 't', 'i', 'v', 'e']

/-- Derived `FromKatcpArgument` for `Status`. -/
def Status.fromArgument (s : List Char) : Except KatcpError Status :=
  if s = ['u', 'n', 'k', 'n', 'o', 'w', 'n'] then .ok .Unknown
  else if s = ['n', 'o', 'm', 'i', 'n', 'a', 'l'] then .ok .Nominal
  else if s = ['w', 'a', 'r', 'n'] then .ok .Warn
  else if s = ['e', 'r', 'r', 'o', 'r'] then .ok .Error
  else if s = ['f', 'a', 'i', 'l', 'u', 'r', 'e'] then .ok .Failure
  else if s = ['u', 'n', 'r', 'e', 'a', 'c', 'h', 'a', 'b', 'l', 'e'] then .ok .Unreachable
  else if s = ['i', 'n', 'a', 'c', 't', 'i', 'v', 'e'] then .ok .Inactive
  else .error .BadArgument

/-- `SamplingStrategy` from `src/messages/sensors.rs` (`f32` parameters
as Lean `Float`). -/
inductive SamplingStrategy where
  | Auto
  | None
  | Period (period : Float)
  | Event
  | Differential (difference : Float)
  | EventRate (shortest_period longest_period : Float)
  | DifferentialRate (difference shortest_period longest_period : Float)

/-- `impl FromKatcpArguments for SamplingStrategy`: one verb, then the
verb's fixed count of `f32` parameters; an unknown verb is
`BadArgument`, a missing verb or missing parameter is
`MissingArgument`.  The Rust function reads from a shared
`&mut impl Iterator`, which stays advanced past everything read even
when the function fails; the pair returned here is the result together
with that advanced stream. -/
def SamplingStrategy.fromArguments (args : Args) :
    Except KatcpError SamplingStrategy × Args :=
  match args with
  | [] => (.error .MissingArgument, [])
  | a :: rest =>
    match stringFromArgument a with
    | .error e => (.error e, rest)
    | .ok strat =>
      if strat = ['a', 'u', 't', 'o'] then (.ok .Auto, rest)
      else if strat = ['n', 'o', 'n', 'e'] then (.ok .None, rest)
      else if strat = ['p', 'e', 'r', 'i', 'o', 'd'] then
        match rest with
        | [] => (.error .MissingArgument, [])
        | p :: rest2 =>
          match f32FromArgument p with
          | .error e => (.error e, rest2)
          | .ok period => (.ok (.Period period), rest2)
      else if strat = ['e', 'v', 'e', 'n', 't'] then (.ok .Event, rest)
      else if strat = ['d', 'i', 'f', 'f', 'e', 'r', 'e', 'n', 't', 'i', 'a', 'l'] then
        match rest with
        | [] => (.error .MissingArgument, [])
        | p :: rest2 =>
          match f32FromArgument p with
          | .error e => (.error e, rest2)
          | .ok difference => (.ok (.Differential difference), rest2)
      else if strat = ['e', 'v', 'e', 'n', 't', '-', 'r', 'a', 't', 'e'] then
        match rest with
        | [] => (.error .MissingArgument, [])
        | p :: rest2 =>
          match f32FromArgument p with
          | .error e => (.error e, rest2)
          | .ok shortest =>
            match rest2 with
            | [] => (.error .MissingArgument, [])
            | q :: rest3 =>
              match f32FromArgument q with
              | .error e => (.error e, rest3)
              | .ok longest => (.ok (.EventRate shortest longest), rest3)
      else if strat = ['d', 'i', 'f', 'f', 'e', 'r', 'e', 'n', 't', 'i', 'a', 'l',
          '-', 'r', 'a', 't', 'e'] then
        match rest with
        | [] => (.error .MissingArgument, [])
        | p :: rest2 =>
          match f32FromArgument p with
          | .error e => (.error e, rest2)
          | .ok difference =>
            match rest2 with
            | [] => (.error .MissingArgument, [])
            | q :: rest3 =>
              match f32FromArgument q with
              | .error e => (.error e, rest3)
              | .ok shortest =>
                match rest3 with
                | [] => (.error .MissingArgument, [])
                | r :: rest4 =>
                  match f32FromArgument r with
                  | .error e => (.error e, rest4)
                  | .ok longest =>
                    (.ok (.DifferentialRate difference shortest longest), rest4)
      else (.error .BadArgument, rest)

/-- `SamplingRequest` from `src/messages/sensors.rs`. -/
structure SamplingRequest where
  names : List Char
  strategy : Option SamplingStrategy

/-- `impl FromKatcpArguments for SamplingRequest`: the sensor name, then
an attempt at a strategy; per the source comment, only `BadArgument`
from the strategy decoder is sent up — any other strategy error yields
`strategy: None`.  The strategy attempt runs on the same iterator, so on
the swallowed-error path the stream stays advanced past whatever the
strategy decoder read before failing. -/
def SamplingRequest.fromArguments (args : Args) :
    Except KatcpError (SamplingRequest × Args) :=
  match args with
  | [] => .error .MissingArgument
  | a :: rest =>
    match stringFromArgument a with
    | .error e => .error e
    | .ok names =>
      match SamplingStrategy.fromArguments rest with
      | (.ok strategy, rest2) => .ok (⟨names, some strategy⟩, rest2)
      | (.error e, rest2) =>
        match e with
        | .BadArgument => .error .BadArgument
        | _ => .ok (⟨names, none⟩, rest2)

/-- `SamplingReply` from `src/messages/sensors.rs`. -/
structure SamplingReply where
  names : List Char
  strategy : SamplingStrategy

/-- `impl FromKatcpArguments for SamplingReply`. -/
def SamplingReply.fromArguments (args : Args) :
    Except KatcpError (SamplingReply × Args) :=
  match args with
  | [] => .error .MissingArgument
  | a :: rest =>
    match stringFromArgument a with
    | .error e => .error e
    | .ok names =>
      match SamplingStrategy.fromArguments rest with
      | (.error e, _) => .error e
      | (.ok strategy, rest2) => .ok (⟨names, strategy⟩, rest2)

/-- `SensorSampling` (derive-generated serde: `Request` and `Reply`
unnamed variants). -/
inductive SensorSampling where
  | Request (request : SamplingRequest)
  | Reply (reply : SamplingReply)

/-- The derive-generated `TryFrom<Message> for SensorSampling`; the
absent `Inform` variant's `unimplemented!()` panic is modelled as
`KatcpError.Unknown`. -/
def SensorSampling.tryFromMessage (m : Message) : Except KatcpError SensorSampling :=
  if m.name ≠ ['s', 'e', 'n', 's', 'o', 'r', '-', 's', 'a', 'm', 'p', 'l', 'i', 'n', 'g'] then
    .error .IncorrectType
  else
    match m.kind with
    | .Request =>
      match SamplingRequest.fromArguments m.arguments with
      | .error e => .error e
      | .ok (r, _) => .ok (.Request r)
    | .Reply =>
      match SamplingReply.fromArguments m.arguments with
      | .error e => .error e
      | .ok (r, _) => .ok (.Reply r)
    | .Inform => .error .Unknown

/-- `SensorReading` from `src/messages/sensors.rs`. -/
structure SensorReading where
  name : List Char
  status : Status
  value : List Char
deriving DecidableEq, Repr

/-- `impl FromKatcpArguments for SensorReading`: name, status, value. -/
def SensorReading.fromArguments (args : Args) :
    Except KatcpError (SensorReading × Args) :=
  match args with
  | [] => .error .MissingArgument
  | a :: rest =>
    match stringFromArgument a with
    | .error e => .error e
    | .ok name =>
      match rest with
      | [] => .error .MissingArgument
      | b :: rest2 =>
        match Status.fromArgument b with
        | .error e => .error e
        | .ok status =>
          match rest2 with
          | [] => .error .MissingArgument
          | c :: rest3 =>
            match stringFromArgument c with
            | .error e => .error e
            | .ok value => .ok (⟨name, status, value⟩, rest3)

/-- `impl ToKatcpArguments for SensorReading`. -/
def SensorReading.toArguments (r : SensorReading) : Args :=
  [stringToArgument r.name, r.status.toArgument, stringToArgument r.value]

/-- `SensorUpdates` from `src/messages/sensors.rs`. -/
structure SensorUpdates where
  timestamp : KatcpTimestamp
  readings : List SensorReading
deriving DecidableEq, Repr

/-- The `for _ in 1..=num_sensors` loop of
`SensorUpdates::from_arguments`: decode exactly `n` readings, failing as
soon as the stream runs out. -/
def readLoop (n : Nat) (args : Args) :
    Except KatcpError (List SensorReading × Args) :=
  match n with
  | 0 => .ok ([], args)
  | n + 1 =>
    match SensorReading.fromArguments args with
    | .error e => .error e
    | .ok (r, rest) =>
      match readLoop n rest with
      | .error e => .error e
      | .ok (rs, rest2) => .ok (r :: rs, rest2)

/-- `impl FromKatcpArguments for SensorUpdates`: timestamp, count, then
exactly `count` readings. -/
def SensorUpdates.fromArguments (args : Args) :
    Except KatcpError (SensorUpdates × Args) :=
  match args with
  | [] => .error .MissingArgument
  | a :: rest =>
    match dateTimeFromArgument a with
    | .error e => .error e
    | .ok timestamp =>
      match rest with
      | [] => .error .MissingArgument
      | b :: rest2 =>
        match u32FromArgument b with
        | .error e => .error e
        | .ok num_sensors =>
          match readLoop num_sensors rest2 with
          | .error e => .error e
          | .ok (readings, rest3) => .ok (⟨timestamp, readings⟩, rest3)

end Sensors

/-! ## The claimed properties -/

/-- `Message::new` accepts any field vector whose name and arguments
fully match their grammar productions. -/
theorem Message.new_ok_of_valid (k : MessageKind) (nm : List Char) (i : Option Nat)
    (args : List (List Char)) (hnm : nameValid nm)
    (hargs : ∀ a ∈ args, argValid a) :
    Message.new k nm i args = .ok ⟨k, nm, i, args⟩ := by
  have h1 : (Protocol.name nm).isSome = true := by
    have h := Protocol.name_complete nm [] hnm (fun c hc => by simp at hc)
    rw [List.append_nil] at h
    rw [h]
    rfl
  have h2 : args.all (fun a => (Protocol.argument a).isSome) = true := by
    rw [List.all_eq_true]
    intro a ha
    have h := Protocol.argument_complete a [] (hargs a ha) (fun c hc => by simp at hc)
    rw [List.append_nil] at h
    show (Protocol.argument a).isSome = true
    rw [h]
    rfl
  unfold Message.new
  rw [if_pos h1, if_pos h2]
  rfl

/-- C1 (counterexample): `Message::new` accepts the id `Some(0)`, but the
serialized form of that message does not parse back — `from_str` of
`to_string` is a `ParseError`, not `Ok`. -/
theorem C1_counterexample_id_zero :
    Message.new .Request ['f', 'o', 'o'] (some 0) [] =
      .ok ⟨.Request, ['f', 'o', 'o'], some 0, []⟩ ∧
    Message.fromStr (Message.toStr ⟨.Request, ['f', 'o', 'o'], some 0, []⟩) =
      .error .ParseError :=
  ⟨rfl, rfl⟩

/-- C1 (amended): for every message whose name and arguments fully match
their grammar productions and whose id, when present, is a positive
`u32`, `Message::new` returns `Ok` and `from_str ∘ to_string` is the
identity. -/
theorem C1_message_roundtrip (k : MessageKind) (nm : List Char) (i : Option Nat)
    (args : List (List Char)) (hnm : nameValid nm)
    (hargs : ∀ a ∈ args, argValid a) (hid : ∀ n ∈ i, 0 < n ∧ n < 2 ^ 32) :
    Message.new k nm i args = .ok ⟨k, nm, i, args⟩ ∧
    Message.fromStr (Message.toStr ⟨k, nm, i, args⟩) = .ok ⟨k, nm, i, args⟩ := by
  refine ⟨Message.new_ok_of_valid k nm i args hnm hargs, ?_⟩
  unfold Message.fromStr
  rw [Protocol.message_toStr_complete ⟨k, nm, i, args⟩ hnm hargs hid]

/-- C1 (witness): the round trip at the concrete message
`?foo[123] ok`. -/
theorem C1_witness :
    Message.new .Request ['f', 'o', 'o'] (some 123) [['o', 'k']] =
      .ok ⟨.Request, ['f', 'o', 'o'], some 123, [['o', 'k']]⟩ ∧
    Message.fromStr (Message.toStr ⟨.Request, ['f', 'o', 'o'], some 123, [['o', 'k']]⟩) =
      .ok ⟨.Request, ['f', 'o', 'o'], some 123, [['o', 'k']]⟩ :=
  C1_message_roundtrip .Request ['f', 'o', 'o'] (some 123) [['o', 'k']]
    (by decide) (by decide)
    (fun n hn => by cases hn; exact ⟨by norm_num, by norm_num⟩)

/-- C2 (counterexample): `Message::new` accepts the id `Some(0)`, yet
the serialized form of that message does not satisfy the message
grammar — the `message` parser rejects it. -/
theorem C2_counterexample_id_zero :
    Message.new .Reply ['b', 'a', 'r'] (some 0) [] =
      .ok ⟨.Reply, ['b', 'a', 'r'], some 0, []⟩ ∧
    Protocol.message (Message.toStr ⟨.Reply, ['b', 'a', 'r'], some 0, []⟩) = none :=
  ⟨rfl, rfl⟩

/-- C2 (amended): for every message whose name and arguments fully match
their grammar productions and whose id, when present, is a positive
`u32`, `Message::new` returns `Ok` and the serialized form satisfies the
full message grammar (the `message` parser consumes it entirely). -/
theorem C2_new_serialization_grammatical (k : MessageKind) (nm : List Char)
    (i : Option Nat) (args : List (List Char)) (hnm : nameValid nm)
    (hargs : ∀ a ∈ args, argValid a) (hid : ∀ n ∈ i, 0 < n ∧ n < 2 ^ 32) :
    Message.new k nm i args = .ok ⟨k, nm, i, args⟩ ∧
    Protocol.message (Message.toStr ⟨k, nm, i, args⟩) =
      some (⟨k, nm, i, args⟩, []) :=
  ⟨Message.new_ok_of_valid k nm i args hnm hargs,
   Protocol.message_toStr_complete ⟨k, nm, i, args⟩ hnm hargs hid⟩

/-- C2 (witness): the grammar invariant at the concrete message
`#baz[7]`. -/
theorem C2_witness :
    Message.new .Inform ['b', 'a', 'z'] (some 7) [] =
      .ok ⟨.Inform, ['b', 'a', 'z'], some 7, []⟩ ∧
    Protocol.message (Message.toStr ⟨.Inform, ['b', 'a', 'z'], some 7, []⟩) =
      some (⟨.Inform, ['b', 'a', 'z'], some 7, []⟩, []) :=
  C2_new_serialization_grammatical .Inform ['b', 'a', 'z'] (some 7) []
    (by decide) (by decide)
    (fun n hn => by cases hn; exact ⟨by norm_num, by norm_num⟩)

/-- C3: for every string with no reserved two-character escape sequence
as an infix, `unescape (escape s) = s` — the two passes are exact
inverses on that domain. -/
theorem C3_unescape_escape (s : List Char) (h : Utils.NoReserved s) :
    Utils.unescape (Utils.escape s) = s :=
  Utils.unescape_escape_of_noReserved s h

/-- C3 (witness): the escaping round trip at the concrete string
`a b<newline>c`, which contains characters that escape rewrites. -/
theorem C3_witness :
    Utils.unescape (Utils.escape ['a', ' ', 'b', '\n', 'c']) =
      ['a', ' ', 'b', '\n', 'c'] :=
  C3_unescape_escape ['a', ' ', 'b', '\n', 'c'] (by decide)

/-- C5 (counterexample): a `period` verb with its numeric parameter
missing is not a hard error — `SamplingRequest::from_arguments` silently
returns a strategy-less result, the verb having been consumed from the
stream by the failed strategy attempt. -/
theorem C5_counterexample_truncated_verb :
    Sensors.SamplingRequest.fromArguments
        [['w', 'i', 'n', 'd', '-', 's', 'p', 'e', 'e', 'd'],
          ['p', 'e', 'r', 'i', 'o', 'd']] =
      .ok (⟨['w', 'i', 'n', 'd', '-', 's', 'p', 'e', 'e', 'd'], none⟩, []) :=
  rfl

/-- C5 (amended): for every sensor-name token, an argument list with no
verb decodes to a strategy-less result; an unknown verb is a hard
`BadArgument` error; but a known verb with fewer parameters than its
fixed count is swallowed — the decode succeeds with `strategy = none`,
the verb and any parameters read before the failure consumed from the
stream, rather than failing. -/
theorem C5_verb_dispatch (nm : List Char) :
    Sensors.SamplingRequest.fromArguments [nm] =
      .ok (⟨Utils.unescape nm, none⟩, []) ∧
    Sensors.SamplingRequest.fromArguments [nm, ['b', 'o', 'g', 'u', 's']] =
      .error .BadArgument ∧
    Sensors.SamplingRequest.fromArguments [nm, ['p', 'e', 'r', 'i', 'o', 'd']] =
      .ok (⟨Utils.unescape nm, none⟩, []) ∧
    Sensors.SamplingRequest.fromArguments
        [nm, ['e', 'v', 'e', 'n', 't', '-', 'r', 'a', 't', 'e'], ['1', '.', '5']] =
      .ok (⟨Utils.unescape nm, none⟩, []) :=
  ⟨rfl, rfl, rfl, rfl⟩

/-- C6 (counterexample): the Log timestamp decoder drops the fractional
text entirely: `420.69` decodes to 420 whole seconds and 0 nanoseconds,
not to a value retaining the sub-second component. -/
theorem C6_counterexample_fraction_discarded :
    str_to_timestamp ['4', '2', '0', '.', '6', '9'] = .ok ⟨420, 0⟩ ∧
    (⟨420, 0⟩ : Common.KatcpTimestamp) ≠ ⟨420, 690000000⟩ :=
  ⟨rfl, by decide⟩

theorem isDigitC_ne_dot (c : Char) (h : isDigitC c = true) : c ≠ '.' := by
  intro heq
  subst heq
  exact absurd h (by decide)

theorem isDigitC_ne_minus (c : Char) (h : isDigitC c = true) : c ≠ '-' := by
  intro heq
  subst heq
  exact absurd h (by decide)

theorem isDigitC_ne_plus (c : Char) (h : isDigitC c = true) : c ≠ '+' := by
  intro heq
  subst heq
  exact absurd h (by decide)

theorem findIdx_dot (d f : List Char) (hdig : ∀ c ∈ d, isDigitC c = true) :
    (d ++ '.' :: f).findIdx (fun c => c = '.') = d.length := by
  induction d with
  | nil => simp [List.findIdx_cons]
  | cons c t ih =>
    have hcd : c ≠ '.' := isDigitC_ne_dot c (hdig c (by simp))
    have h2 := ih (fun x hx => hdig x (List.mem_cons_of_mem c hx))
    simp [List.findIdx_cons, hcd, h2]

theorem str_to_timestamp_run (s : List Char) :
    str_to_timestamp s =
      match Common.parseI64 (s.take (s.findIdx (fun c => c = '.'))) with
      | none => .error .BadArgument
      | some v => .ok ⟨v, 0⟩ :=
  rfl

/-- C6 (amended): for every token of the form `digits.anything` (the
integer part nonempty, all digits, within the `i64` range), both the
splitting and the integer parse behave as specified, but the fractional
part is discarded: the decoded timestamp always has `nanos = 0`,
whatever the fraction says. -/
theorem C6_timestamp_truncates (d f : List Char) (hne : d ≠ [])
    (hdig : ∀ c ∈ d, isDigitC c = true)
    (hrange : d.foldl (fun acc c => 10 * acc + (c.toNat - 48)) 0 < 2 ^ 63) :
    str_to_timestamp (d ++ '.' :: f) =
      .ok ⟨(d.foldl (fun acc c => 10 * acc + (c.toNat - 48)) 0 : Nat), 0⟩ := by
  have hhead : d.head? ≠ some '-' ∧ d.head? ≠ some '+' := by
    cases d with
    | nil => simp
    | cons c t =>
      have hc := hdig c (by simp)
      exact ⟨by simp [isDigitC_ne_minus c hc], by simp [isDigitC_ne_plus c hc]⟩
  have hstrip : Common.stripSign d = d := by
    unfold Common.stripSign
    rw [if_neg]
    rintro (h | h)
    · exact hhead.2 h
    · exact hhead.1 h
  have hparse : Common.parseI64 d =
      some ((d.foldl (fun acc c => 10 * acc + (c.toNat - 48)) 0 : Nat) : Int) := by
    have hnegf : decide (d.head? = some '-') = false := decide_eq_false hhead.1
    simp only [Common.parseI64, hstrip, hnegf]
    rw [if_pos ⟨hne, List.all_eq_true.mpr hdig⟩]
    simp only [Bool.false_eq_true, if_false]
    rw [if_pos hrange]
  rw [str_to_timestamp_run, findIdx_dot d f hdig, List.take_left, hparse]

/-- C6 (witness): the amended truncation behaviour at the concrete token
`420.69`. -/
theorem C6_witness :
    str_to_timestamp (['4', '2', '0'] ++ '.' :: ['6', '9']) =
      .ok ⟨(List.foldl (fun acc c => 10 * acc + (c.toNat - 48)) 0 ['4', '2', '0'] : Nat), 0⟩ :=
  C6_timestamp_truncates ['4', '2', '0'] ['6', '9'] (by decide) (by decide) (by decide)

/-- C7: coded-result decoding: a leading `ok` yields the success case
(no payload for `GenericReply`, one `u32` for `IntReply`); `invalid` and
`fail` yield the failure case with the code and exactly one unescaped
message string; any other leading code is `BadArgument`. -/
theorem C7_coded_reply_decode :
    (∀ rest : Args, Core.GenericReply.fromArguments (['o', 'k'] :: rest) =
      .ok (.Ok, rest)) ∧
    (∀ (msg : List Char) (rest : Args),
      Core.GenericReply.fromArguments
          (['i', 'n', 'v', 'a', 'l', 'i', 'd'] :: msg :: rest) =
        .ok (.Error .Invalid (Utils.unescape msg), rest)) ∧
    (∀ (msg : List Char) (rest : Args),
      Core.GenericReply.fromArguments (['f', 'a', 'i', 'l'] :: msg :: rest) =
        .ok (.Error .Fail (Utils.unescape msg), rest)) ∧
    (∀ (c : List Char) (rest : Args),
      c ≠ ['o', 'k'] → c ≠ ['i', 'n', 'v', 'a', 'l', 'i', 'd'] →
      c ≠ ['f', 'a', 'i', 'l'] →
      Core.GenericReply.fromArguments (c :: rest) = .error .BadArgument) ∧
    (∀ (n : List Char) (v : Nat) (rest : Args), Protocol.parseU32 n = some v →
      Core.IntReply.fromArguments (['o', 'k'] :: n :: rest) = .ok (.Ok v, rest)) ∧
    (∀ (msg : List Char) (rest : Args),
      Core.IntReply.fromArguments
          (['i', 'n', 'v', 'a', 'l', 'i', 'd'] :: msg :: rest) =
        .ok (.Error .Invalid (Utils.unescape msg), rest)) ∧
    (∀ (msg : List Char) (rest : Args),
      Core.IntReply.fromArguments (['f', 'a', 'i', 'l'] :: msg :: rest) =
        .ok (.Error .Fail (Utils.unescape msg), rest)) ∧
    (∀ (c : List Char) (rest : Args),
      c ≠ ['o', 'k'] → c ≠ ['i', 'n', 'v', 'a', 'l', 'i', 'd'] →
      c ≠ ['f', 'a', 'i', 'l'] →
      Core.IntReply.fromArguments (c :: rest) = .error .BadArgument) := by
  refine ⟨fun rest => rfl, fun msg rest => rfl, fun msg rest => rfl,
    ?_, ?_, fun msg rest => rfl, fun msg rest => rfl, ?_⟩
  · intro c rest h1 h2 h3
    have hr : Common.RetCode.fromArgument c = .error .BadArgument := by
      unfold Common.RetCode.fromArgument
      rw [if_neg h1, if_neg h2, if_neg h3]
    simp only [Core.GenericReply.fromArguments, hr]
  · intro n v rest hpn
    have hu : Common.u32FromArgument n = .ok v := by
      unfold Common.u32FromArgument
      rw [hpn]
    show (match Common.u32FromArgument n with
      | .error e => (.error e : Except KatcpError (Core.IntReply × Args))
      | .ok k => .ok (.Ok k, rest)) = .ok (.Ok v, rest)
    rw [hu]
  · intro c rest h1 h2 h3
    have hr : Common.RetCode.fromArgument c = .error .BadArgument := by
      unfold Common.RetCode.fromArgument
      rw [if_neg h1, if_neg h2, if_neg h3]
    simp only [Core.IntReply.fromArguments, hr]

/-- C7 (witness): coded-result decoding at the concrete argument lists
`["nope"]` and `["ok", "42"]`. -/
theorem C7_witness :
    Core.GenericReply.fromArguments [['n', 'o', 'p', 'e']] = .error .BadArgument ∧
    Core.IntReply.fromArguments [['o', 'k'], ['4', '2']] = .ok (.Ok 42, []) :=
  ⟨C7_coded_reply_decode.2.2.2.1 ['n', 'o', 'p', 'e'] []
      (by decide) (by decide) (by decide),
   C7_coded_reply_decode.2.2.2.2.1 ['4', '2'] 42 [] (by decide)⟩

/-- Decoding a rendered `Status` recovers it. -/
theorem Status.fromArgument_toArgument (st : Sensors.Status) :
    Sensors.Status.fromArgument st.toArgument = .ok st := by
  cases st <;> rfl

/-- Decoding an encoded `SensorReading` succeeds, consuming exactly its
three rendered tokens (the decoded fields pass through `unescape`). -/
theorem SensorReading.fromArguments_encoded (r : Sensors.SensorReading) (rest : Args) :
    Sensors.SensorReading.fromArguments (r.toArguments ++ rest) =
      .ok (⟨Utils.unescape (Utils.escape r.name), r.status,
        Utils.unescape (Utils.escape r.value)⟩, rest) := by
  obtain ⟨nm, st, v⟩ := r
  show Sensors.SensorReading.fromArguments
      (Common.stringToArgument nm :: st.toArgument ::
        Common.stringToArgument v :: rest) = _
  simp only [Sensors.SensorReading.fromArguments, Common.stringFromArgument,
    Status.fromArgument_toArgument]
  rfl

/-- The reading loop fails with `MissingArgument` whenever the stream
holds fewer encoded readings than the count demands. -/
theorem readLoop_encoded_short (rs : List Sensors.SensorReading) :
    ∀ n, rs.length < n →
      Sensors.readLoop n (rs.flatMap Sensors.SensorReading.toArguments) =
        .error .MissingArgument := by
  induction rs with
  | nil =>
    intro n hn
    match n, hn with
    | n + 1, _ => rfl
  | cons r t ih =>
    intro n hn
    match n, hn with
    | n + 1, hn =>
      have hlt : t.length < n := by
        simp only [List.length_cons] at hn
        omega
      rw [List.flatMap_cons]
      simp only [Sensors.readLoop, SensorReading.fromArguments_encoded r
        (t.flatMap Sensors.SensorReading.toArguments)]
      rw [ih n hlt]

/-- C8: count-prefixed repetition: with a decodable timestamp and a
count of `n`, a stream holding fewer than `n` encoded readings fails
with `MissingArgument`; a count of `0` followed by nothing succeeds with
an empty readings list. -/
theorem C8_sensor_updates_count :
    (∀ (ts cnt : List Char) (t : Common.KatcpTimestamp) (n : Nat)
        (rs : List Sensors.SensorReading),
      Common.dateTimeFromArgument ts = .ok t → Protocol.parseU32 cnt = some n →
      rs.length < n →
      Sensors.SensorUpdates.fromArguments
          (ts :: cnt :: rs.flatMap Sensors.SensorReading.toArguments) =
        .error .MissingArgument) ∧
    (∀ (ts : List Char) (t : Common.KatcpTimestamp),
      Common.dateTimeFromArgument ts = .ok t →
      Sensors.SensorUpdates.fromArguments [ts, ['0']] = .ok (⟨t, []⟩, [])) := by
  constructor
  · intro ts cnt t n rs hts hcnt hlen
    have hu : Common.u32FromArgument cnt = .ok n := by
      unfold Common.u32FromArgument
      rw [hcnt]
    simp only [Sensors.SensorUpdates.fromArguments, hts, hu]
    rw [readLoop_encoded_short rs n hlen]
  · intro ts t hts
    have hu : Common.u32FromArgument ['0'] = .ok 0 := rfl
    simp only [Sensors.SensorUpdates.fromArguments, hts, hu, Sensors.readLoop]

/-- C8 (witness): count `2` with one encoded reading fails with
`MissingArgument`; count `0` with nothing succeeds. -/
theorem C8_witness :
    Sensors.SensorUpdates.fromArguments
        (['1', '0', '0'] :: ['2'] ::
          ([⟨['a'], .Nominal, ['1']⟩] :
            List Sensors.SensorReading).flatMap Sensors.SensorReading.toArguments) =
      .error .MissingArgument ∧
    (∃ t, Sensors.SensorUpdates.fromArguments [['1', '0', '0'], ['0']] =
      .ok (⟨t, []⟩, [])) :=
  ⟨C8_sensor_updates_count.1 ['1', '0', '0'] ['2'] _ 2
      [⟨['a'], .Nominal, ['1']⟩] rfl rfl (by decide),
   ⟨_, C8_sensor_updates_count.2 ['1', '0', '0'] _ rfl⟩⟩

/-- C9: for each modelled message-family type (`Halt`, `Help`, `Log`,
`SensorSampling`), a message whose name differs from the family's
canonical kebab-case name decodes to `IncorrectType` — an error distinct
from `BadArgument`/`MissingArgument` — whatever the kind, id and
arguments, before any argument is decoded. -/
theorem C9_wrong_name_incorrect_type (m : Message) :
    (m.name ≠ ['h', 'a', 'l', 't'] →
      Core.Halt.tryFromMessage m = .error .IncorrectType) ∧
    (m.name ≠ ['h', 'e', 'l', 'p'] →
      Core.Help.tryFromMessage m = .error .IncorrectType) ∧
    (m.name ≠ ['l', 'o', 'g'] →
      Log.tryFromMessage m = .error .IncorrectType) ∧
    (m.name ≠ ['s', 'e', 'n', 's', 'o', 'r', '-', 's', 'a', 'm', 'p', 'l', 'i', 'n', 'g'] →
      Sensors.SensorSampling.tryFromMessage m = .error .IncorrectType) := by
  refine ⟨fun h => ?_, fun h => ?_, fun h => ?_, fun h => ?_⟩
  · unfold Core.Halt.tryFromMessage
    rw [if_pos h]
  · unfold Core.Help.tryFromMessage
    rw [if_pos h]
  · unfold Log.tryFromMessage
    rw [if_pos h]
  · unfold Sensors.SensorSampling.tryFromMessage
    rw [if_pos h]

/-- C9 (witness): the four name guards at the concrete message `?foo`,
whose arguments are never touched. -/
theorem C9_witness :
    Core.Halt.tryFromMessage ⟨.Request, ['f', 'o', 'o'], none, []⟩ =
      .error .IncorrectType ∧
    Core.Help.tryFromMessage ⟨.Request, ['f', 'o', 'o'], none, []⟩ =
      .error .IncorrectType ∧
    Log.tryFromMessage ⟨.Request, ['f', 'o', 'o'], none, []⟩ =
      .error .IncorrectType ∧
    Sensors.SensorSampling.tryFromMessage ⟨.Request, ['f', 'o', 'o'], none, []⟩ =
      .error .IncorrectType :=
  ⟨(C9_wrong_name_incorrect_type _).1 (by decide),
   (C9_wrong_name_incorrect_type _).2.1 (by decide),
   (C9_wrong_name_incorrect_type _).2.2.1 (by decide),
   (C9_wrong_name_incorrect_type _).2.2.2 (by decide)⟩

/-- C10 (counterexample): two `KatcpProtocol` values that are equal in
Rust (`HashSet` equality ignores iteration order) encode to different
argument vectors when the set iterates its two flags in different
orders: `5.1-MB` versus `5.1-BM`. -/
theorem C10_counterexample_flag_order :
    Core.VersionConnectInform.rustEq
      (.KatcpProtocol 5 1 [.MultiClient, .BulkSampling])
      (.KatcpProtocol 5 1 [.BulkSampling, .MultiClient]) ∧
    Core.VersionConnectInform.toArguments
        (.KatcpProtocol 5 1 [.MultiClient, .BulkSampling]) ≠
      Core.VersionConnectInform.toArguments
        (.KatcpProtocol 5 1 [.BulkSampling, .MultiClient]) := by
  constructor
  · exact ⟨rfl, rfl, fun x => by cases x <;> decide⟩
  · decide

/-- C10 (amended): `to_arguments` is deterministic once the whole
representation is fixed: two values that are Rust-equal and whose flag
sets iterate in the same order encode to identical argument vectors. -/
theorem C10_encode_deterministic (v1 v2 : Core.VersionConnectInform)
    (heq : Core.VersionConnectInform.rustEq v1 v2)
    (hord : v1.flagOrder = v2.flagOrder) :
    v1.toArguments = v2.toArguments := by
  cases v1 <;> cases v2 <;>
    simp only [Core.VersionConnectInform.rustEq] at heq <;>
    simp only [Core.VersionConnectInform.flagOrder, Option.some.injEq,
      reduceCtorEq] at hord
  · obtain ⟨h1, h2, _⟩ := heq
    subst h1
    subst h2
    subst hord
    rfl
  · obtain ⟨h1, h2⟩ := heq
    subst h1
    subst h2
    rfl
  · obtain ⟨h1, h2, h3⟩ := heq
    subst h1
    subst h2
    subst h3
    rfl
  · obtain ⟨h1, h2, h3⟩ := heq
    subst h1
    subst h2
    subst h3
    rfl

/-- C10 (witness): determinism at a concrete `katcp-protocol` value. -/
theorem C10_witness :
    Core.VersionConnectInform.toArguments (.KatcpProtocol 5 0 [.MultiClient]) =
      Core.VersionConnectInform.toArguments (.KatcpProtocol 5 0 [.MultiClient]) :=
  C10_encode_deterministic _ _ ⟨rfl, rfl, fun _ => Iff.rfl⟩ rfl

/-- C4: `escape` of the empty string is the sentinel `\@`; the optional
codec therefore renders the present-but-empty string identically to the
absent value, and decoding the rendered present-but-empty value yields
`Ok(None)`. -/
theorem C4_empty_string_sentinel :
    Utils.escape [] = ['\\', '@'] ∧
    Common.optionToArgument Common.stringToArgument (some ([] : List Char)) =
      Common.optionToArgument Common.stringToArgument (none : Option (List Char)) ∧
    Common.optionFromArgument Common.stringFromArgument
      (Common.optionToArgument Common.stringToArgument (some ([] : List Char))) =
      .ok none :=
  ⟨rfl, rfl, rfl⟩

end Katcp
